import Mathlib

/-!
Shallow embedding of the wind-rose aggregator and history codec of the
anemometer repository (src/client/windrose.js and src/server/anemometer.js).

Numbers are modelled as exact rationals.  Where the JavaScript code can
produce `NaN` on a path a claim depends on (the speed of a reading decoded
from an out-of-range band, which is `this.bands[band] + ...` with
`this.bands[band]` undefined), a speed is modelled as `Option ℚ` with `none`
playing the role of NaN: every JS comparison or equality with NaN is false,
which the `js*` helpers reproduce.  DOM manipulation, SVG rendering, the
per-bucket `oldest`/`newest`/`next` chain (bookkeeping that no observable
state of the claims reads), the animation resampler and `console.log` calls
are omitted; timestamps and directions are modelled as plain rationals.
-/

namespace Windrose

/-- Truncation toward zero, as JS does when computing `a % b`. -/
def jsTrunc (x : ℚ) : ℤ := if 0 ≤ x then ⌊x⌋ else ⌈x⌉

/-- The JS `%` operator on finite numbers: `a - b * trunc (a / b)`. -/
def jsFmod (a b : ℚ) : ℚ := a - b * jsTrunc (a / b)

/-- JS `Math.round`: round half toward positive infinity, `⌊x + 1/2⌋`. -/
def jsRound (x : ℚ) : ℤ := ⌊x + 1/2⌋

/-- A JS number that may be NaN (`none` = NaN). -/
abbrev JsNum := Option ℚ

/-- JS `==` on numbers: false whenever either operand is NaN. -/
def jsEq : JsNum → JsNum → Bool
  | some a, some b => a = b
  | _, _ => false

/-- JS `<` with a possibly-NaN left operand: false on NaN. -/
def jsLt (s : JsNum) (b : ℚ) : Bool :=
  match s with
  | some x => x < b
  | none => false

/-- JS `Math.max(0, speed)`: NaN stays NaN. -/
def jsMax0 : JsNum → JsNum
  | some s => some (max 0 s)
  | none => none

/-- Configuration of one wind-rose instance: `numarcs` is `rose.length`
(the constructor makes `ceil(360/options.arc)` arcs), `bands` the speed-band
upper bounds discovered by `#loadBands`, `maxCount`/`maxAge` the
`max_data_count`/`max_data_age` options (0 = disabled, matching the JS
falsy test). -/
structure Cfg where
  numarcs : ℕ
  bands : List ℚ
  maxCount : ℕ
  maxAge : ℚ
deriving DecidableEq

/-- The actual arc width `this.options.arc = 360 / numarcs`. -/
def arcWidth (cfg : Cfg) : ℚ := 360 / (cfg.numarcs : ℚ)

/-- A queued reading, as stored in `this.q` (the `x`/`y` cartesian fields are
used only by the animation resampler and are omitted). -/
structure Msg where
  dir : ℚ
  speed : JsNum
  when : ℚ
deriving DecidableEq

/-- Direction normalization in `#update`: `((dir % 360) + 360) % 360`. -/
def normDir (d : ℚ) : ℚ := jsFmod (jsFmod d 360 + 360) 360

/-- The reading built at the top of `#update`:
`speed = Math.max(0, speed); dir = speed == 0 ? 0 : ((dir % 360) + 360) % 360`. -/
def normMsg (dir : ℚ) (speed : JsNum) (when : ℚ) : Msg :=
  ⟨if jsEq (jsMax0 speed) (some 0) then 0 else normDir dir, jsMax0 speed, when⟩

/-- The speed-band loop of `#update` (both the insertion and the eviction
copy break at the first band with `speed < bands[band]`, i.e.
`bands[band] > speed`); the result is `bands.length` when no band matches,
including for a NaN speed. -/
def clientBandOf (bands : List ℚ) (speed : JsNum) : ℕ :=
  bands.findIdx (fun b => jsLt speed b)

/-- The arc computation of `#update`: `Math.round(dir / options.arc)`
followed by a single wrap (`+ numarcs` if negative, `- numarcs` if
`>= numarcs`). -/
def arcOfZ (cfg : Cfg) (d : ℚ) : ℤ :=
  let a := jsRound (d / arcWidth cfg)
  if a < 0 then a + cfg.numarcs
  else if (cfg.numarcs : ℤ) ≤ a then a - cfg.numarcs
  else a

/-- The bucket a stored reading belongs to: `none` is the zero-speed
sentinel `rose0`, otherwise the `(arc, band)` cell.  `#update` computes
this identically on its insertion and eviction paths. -/
def cellOf (cfg : Cfg) (m : Msg) : Option (ℤ × ℕ) :=
  if jsEq m.speed (some 0) then none
  else some (arcOfZ cfg m.dir, clientBandOf cfg.bands m.speed)

/-- Aggregator state: the ordered queue `q`, the `rose` grid of per-cell
counts (rows grow on demand, as the JS pushes `{count:0}` cells), the
zero-speed sentinel count `rose0`, and the `#preloading` flag. -/
structure RoseState where
  q : List Msg
  rose : List (List ℤ)
  rose0 : ℤ
  preloading : Bool
deriving DecidableEq

/-- State right after the constructor: `numarcs` empty rows and
`rose0 = {count: 0}`. -/
def initState (cfg : Cfg) : RoseState :=
  ⟨[], List.replicate cfg.numarcs [], 0, false⟩

/-- The duplicate test of the insertion scan:
`r.when == when && r.speed == speed && r.dir == dir`. -/
def isDup (r m : Msg) : Bool :=
  decide (r.when = m.when) && jsEq r.speed m.speed && decide (r.dir = m.dir)

/-- The backward scan of `#update`, from index `i` down: at each index it
discards on an exact duplicate, splices before index `i` once the
predecessor is strictly older (or at the front at index 0), and otherwise
steps down.  The `none` arms of the index lookups are unreachable at the
call site (the scan starts at `q.length - 1` of a nonempty queue). -/
def qScan (m : Msg) (q : List Msg) : ℕ → Option (List Msg)
  | 0 =>
    match q[0]? with
    | none => some (m :: q)
    | some r => if isDup r m then none else some (m :: q)
  | i + 1 =>
    match q[i + 1]? with
    | none => some (m :: q)
    | some r =>
      if isDup r m then none
      else
        match q[i]? with
        | none => some (m :: q)
        | some p =>
          if p.when < m.when then some (q.take (i + 1) ++ m :: q.drop (i + 1))
          else qScan m q i

/-- Queue insertion of `#update`: push at the tail when the queue is empty
or the tail is strictly older, else scan backward; `none` means the reading
was discarded as an exact duplicate. -/
def queueInsert (m : Msg) (q : List Msg) : Option (List Msg) :=
  match q.getLast? with
  | none => some (q ++ [m])
  | some tl => if tl.when < m.when then some (q ++ [m]) else qScan m q (q.length - 1)

/-- The ways `#update` can terminate abnormally. -/
inductive UpdErr
  /-- TypeError reading `this.q[0].when` in the eviction guard once the
  queue has been emptied (only reachable with `max_data_age` enabled). -/
  | emptyQueue
  /-- TypeError on `o.count` when the eviction (or insertion) path addresses
  a rose cell that was never created. -/
  | missingCell
  /-- The explicit `throw new Error("maxfreq=...")`. -/
  | maxfreqExceeded
deriving DecidableEq

/-- Look up the cell `rose[a][b]`; `none` when the row or the cell does not
exist (JS `undefined`). -/
def cellGet (rose : List (List ℤ)) (a : ℤ) (b : ℕ) : Option ℤ :=
  match (if 0 ≤ a then rose[a.toNat]? else none) with
  | none => none
  | some row => row[b]?

/-- The count of cell `rose[a][b]`, reading a missing cell as 0. -/
def cellVal (rose : List (List ℤ)) (a : ℤ) (b : ℕ) : ℤ :=
  (cellGet rose a b).getD 0

/-- Overwrite the count of an existing cell. -/
def setCell (rose : List (List ℤ)) (a : ℤ) (b : ℕ) (x : ℤ) : List (List ℤ) :=
  if 0 ≤ a then
    match rose[a.toNat]? with
    | none => rose
    | some row => rose.set a.toNat (row.set b x)
  else rose

/-- Decrement the bucket of an evicted reading (`o.count--`); errors when
the addressed cell does not exist (`o` is `undefined`). -/
def evictDec (cfg : Cfg) (m : Msg) (rose : List (List ℤ)) (rose0 : ℤ) :
    Except UpdErr (List (List ℤ) × ℤ) :=
  match cellOf cfg m with
  | none => Except.ok (rose, rose0 - 1)
  | some (a, b) =>
    match cellGet rose a b with
    | none => Except.error UpdErr.missingCell
    | some c => Except.ok (setCell rose a b (c - 1), rose0)

/-- The eviction loop of `#update`: while the count cap or the age cap is
exceeded, shift the oldest reading and decrement its bucket.  On an empty
queue the age test dereferences `this.q[0].when` (TypeError), which the
`[]` case reproduces; the count test alone is false there. -/
def evictLoop (cfg : Cfg) (now : ℚ) :
    List Msg → List (List ℤ) → ℤ → Except UpdErr (List Msg × List (List ℤ) × ℤ)
  | [], rose, rose0 =>
    if cfg.maxAge ≠ 0 then Except.error UpdErr.emptyQueue
    else Except.ok ([], rose, rose0)
  | m :: rest, rose, rose0 =>
    if (cfg.maxCount ≠ 0 ∧ cfg.maxCount < (m :: rest).length) ∨
        (cfg.maxAge ≠ 0 ∧ cfg.maxAge < now - m.when) then
      match evictDec cfg m rose rose0 with
      | Except.error e => Except.error e
      | Except.ok (rose1, rose01) => evictLoop cfg now rest rose1 rose01
    else Except.ok (m :: rest, rose, rose0)

/-- Grow a rose row with `{count:0}` cells until index `band` exists
(`while (band >= this.rose[arc].length) this.rose[arc].push({count:0})`). -/
def extendRow (row : List ℤ) (band : ℕ) : List ℤ :=
  row ++ List.replicate (band + 1 - row.length) 0

/-- Classify the new reading and increment its bucket (`o.count++`);
`none` models the TypeError were `rose[arc]` missing. -/
def addMsg (cfg : Cfg) (m : Msg) (rose : List (List ℤ)) (rose0 : ℤ) :
    Option (List (List ℤ) × ℤ) :=
  match cellOf cfg m with
  | none => some (rose, rose0 + 1)
  | some (a, b) =>
    match (if 0 ≤ a then rose[a.toNat]? else none) with
    | none => none
    | some row =>
      let row1 := extendRow row b
      some (rose.set a.toNat (row1.set b (row1.getD b 0 + 1)), rose0)

/-- The maximum per-arc frequency recomputed after every insertion: the
running maximum of `rose0.count / total` and each arc's summed count over
`total`. -/
def maxfreqOf (rose : List (List ℤ)) (rose0 : ℤ) (total : ℕ) : ℚ :=
  (rose.map (fun row => (row.sum : ℚ) / (total : ℚ))).foldl max ((rose0 : ℚ) / (total : ℚ))

/-- Tail of `#update` after eviction: classify and count the new reading,
then throw if the recomputed maximum per-arc frequency exceeds 1, else
return the final state. -/
def updStep3 (cfg : Cfg) (m : Msg) (q2 : List Msg) (rose2 : List (List ℤ))
    (rose02 : ℤ) (pl : Bool) : Except UpdErr RoseState :=
  match addMsg cfg m rose2 rose02 with
  | none => Except.error UpdErr.missingCell
  | some (rose3, rose03) =>
    if 1 < maxfreqOf rose3 rose03 q2.length then Except.error UpdErr.maxfreqExceeded
    else Except.ok ⟨q2, rose3, rose03, pl⟩

/-- Middle of `#update`: run the eviction loop, then the counting tail. -/
def updStep2 (cfg : Cfg) (now : ℚ) (m : Msg) (q1 : List Msg) (st : RoseState) :
    Except UpdErr RoseState :=
  match evictLoop cfg now q1 st.rose st.rose0 with
  | Except.error e => Except.error e
  | Except.ok (q2, rose2, rose02) => updStep3 cfg m q2 rose2 rose02 st.preloading

/-- The private `#update(dir, speed, when)`: normalize, insert into the
queue (returning unchanged on a duplicate), evict, classify and count the
new reading, then throw if the recomputed maximum per-arc frequency
exceeds 1.  `now` is the `Date.now()` sampled on entry. -/
def hashUpdate (cfg : Cfg) (now : ℚ) (dir : ℚ) (speed : JsNum) (when : ℚ)
    (st : RoseState) : Except UpdErr RoseState :=
  match queueInsert (normMsg dir speed when) st.q with
  | none => Except.ok st
  | some q1 => updStep2 cfg now (normMsg dir speed when) q1 st

/-- Timestamp resolution of the public `update`: a falsy `when` (absent or
zero) becomes `Date.now()`, otherwise values below `10^12` are scaled from
seconds to milliseconds. -/
def resolveWhen (now : ℚ) (w : Option ℚ) : ℚ :=
  match w with
  | none => now
  | some v => if v = 0 then now else if v < 1000000000000 then v * 1000 else v

/-- The public `update(dir, speed, when)`: dropped outright while a preload
is decoding, else timestamp-resolved and forwarded to `#update`.  (The
object-argument overload and the DOM work of `#loadBands` and
`requestAnimationFrame` are omitted.) -/
def update (cfg : Cfg) (now : ℚ) (dir : ℚ) (speed : JsNum) (w : Option ℚ)
    (st : RoseState) : Except UpdErr RoseState :=
  if st.preloading then Except.ok st
  else hashUpdate cfg now dir speed (resolveWhen now w) st

/-- One recorded `#update` invocation, with the `Date.now()` it observed. -/
structure Call where
  now : ℚ
  dir : ℚ
  speed : JsNum
  when : ℚ
deriving DecidableEq

/-- Run a sequence of `#update` calls, stopping at the first thrown error. -/
def runCalls (cfg : Cfg) : List Call → RoseState → Except UpdErr RoseState
  | [], st => Except.ok st
  | c :: rest, st =>
    match hashUpdate cfg c.now c.dir c.speed c.when st with
    | Except.error e => Except.error e
    | Except.ok st1 => runCalls cfg rest st1

/-- Number of queued readings classified into cell `(a, b)`. -/
def cellCount (cfg : Cfg) (q : List Msg) (a : ℤ) (b : ℕ) : ℤ :=
  (q.countP (fun m => cellOf cfg m = some (a, b)) : ℤ)

/-- Number of queued readings classified into the zero-speed sentinel. -/
def zeroCount (cfg : Cfg) (q : List Msg) : ℤ :=
  (q.countP (fun m => cellOf cfg m = none) : ℤ)

/-- Total of all bucket counts of the grid. -/
def roseSum (rose : List (List ℤ)) : ℤ := (rose.map List.sum).sum

/-- Total over all buckets, the zero-speed sentinel included. -/
def sumCounts (st : RoseState) : ℤ := roseSum st.rose + st.rose0

/-! ## History codec

The client decodes the `"delta"` format in `preload` (src/client/windrose.js);
the server encodes it in `publishHistory` (src/server/anemometer.js).  Time
fields (`when`, `step`) are modelled as plain rationals on the decode side;
on the encode side, values the JS leaves `undefined` or turns into NaN
(the unset `start`, the misspelled `req.numarccs` in the arc wrap) are
modelled as `Option` with `none` for undefined/NaN. -/

/-- One entry of a delta `records` array: a bare number (bucket delta) or a
`{when: d}` time-adjustment object. -/
inductive DeltaRec
  | num (v : ℤ)
  | adj (d : ℚ)
deriving DecidableEq

/-- A decoded-side delta payload with its time fields present. -/
structure DeltaMsg where
  when : ℚ
  step : ℚ
  records : List DeltaRec
deriving DecidableEq

/-- One `(dir, speed, deltaMs)` triple pushed onto the working array `a`
during decode. -/
structure DecTriple where
  dir : ℚ
  speed : JsNum
  dwhen : ℚ
deriving DecidableEq

/-- Reconstructed speed of a decoded bucket:
`(bands[band] + (band == 0 ? 0 : bands[band-1])) / 2`; `none` (NaN) when
`bands[band]` is undefined, i.e. the band index is out of range. -/
def jsBandSpeed (bands : List ℚ) (band : ℤ) : JsNum :=
  match (if 0 ≤ band then bands[band.toNat]? else none) with
  | none => none
  | some ub => some ((ub + (if band = 0 then 0 else bands.getD (band.toNat - 1) 0)) / 2)

/-- The record loop of the `"delta"` branch of `preload`: a numeric record
advances the cursor `target` and, when `target >= 0`, reconstructs the
bucket-midpoint reading (`band = Math.floor(target/numarcs)`,
`arc = target - band*numarcs`, `dir = (arc+0.5)*options.arc`); a negative
cursor keeps the `dir = 0, speed = 0` defaults.  A `{when: d}` record with
truthy `d` only nudges the virtual clock. -/
def decodeDeltaGo (cfg : Cfg) (step : ℚ) :
    List DeltaRec → ℤ → ℚ → ℚ → List DecTriple
  | [], _, _, _ => []
  | DeltaRec.num v :: rest, target, when, lastwhen =>
    let t := target + v
    let band : ℤ := ⌊(t : ℚ) / (cfg.numarcs : ℚ)⌋
    let arc : ℤ := t - band * cfg.numarcs
    let dir : ℚ := if 0 ≤ t then ((arc : ℚ) + 1/2) * arcWidth cfg else 0
    let speed : JsNum := if 0 ≤ t then jsBandSpeed cfg.bands band else some 0
    ⟨dir, speed, when - lastwhen⟩ :: decodeDeltaGo cfg step rest t (when + step) when
  | DeltaRec.adj d :: rest, target, when, lastwhen =>
    if d ≠ 0 then decodeDeltaGo cfg step rest target (when + d) lastwhen
    else decodeDeltaGo cfg step rest target when lastwhen

/-- Decode a `"delta"` payload into the flat array of reading triples
(`numarcs` is `this.rose.length`, the client's own arc count). -/
def decodeDelta (cfg : Cfg) (msg : DeltaMsg) : List DecTriple :=
  decodeDeltaGo cfg msg.step msg.records 0 msg.when msg.when

/-- The batch loop `f` of `preload`: accumulate the virtual clock and feed
each triple to `#update` (chunk boundaries do not change the sequence of
calls, so the chunking is elided). -/
def applyTriples (cfg : Cfg) (now : ℚ) :
    List DecTriple → ℚ → RoseState → Except UpdErr RoseState
  | [], _, st => Except.ok st
  | t :: rest, when, st =>
    match hashUpdate cfg now t.dir t.speed (when + t.dwhen) st with
    | Except.error e => Except.error e
    | Except.ok st1 => applyTriples cfg now rest (when + t.dwhen) st1

/-- Full `"delta"` preload: raise the `#preloading` flag, decode, feed every
triple to `#update`, and clear the flag when the final batch completes. -/
def preloadDelta (cfg : Cfg) (now : ℚ) (msg : DeltaMsg) (st : RoseState) :
    Except UpdErr RoseState :=
  match applyTriples cfg now (decodeDelta cfg msg) msg.when
      ⟨st.q, st.rose, st.rose0, true⟩ with
  | Except.error e => Except.error e
  | Except.ok st1 => Except.ok ⟨st1.q, st1.rose, st1.rose0, false⟩

/-- One raw reading of the server's history log. -/
structure HistRec where
  dir : ℚ
  speed : ℚ
  when : ℚ
deriving DecidableEq

/-- The server's band loop:
`for (band = 0; band < req.bands.length && speed >= req.bands[band]; band++);`. -/
def serverBandOf (bands : List ℚ) (speed : ℚ) : ℕ :=
  match bands with
  | [] => 0
  | b :: rest => if b ≤ speed then serverBandOf rest speed + 1 else 0

/-- Subtraction of possibly-NaN rationals. -/
def jsSubQ : Option ℚ → Option ℚ → Option ℚ
  | some a, some b => some (a - b)
  | _, _ => none

/-- Addition of possibly-NaN rationals. -/
def jsAddQ : Option ℚ → Option ℚ → Option ℚ
  | some a, some b => some (a + b)
  | _, _ => none

/-- Subtraction of possibly-NaN integer values. -/
def jsSubZ : Option ℤ → Option ℤ → Option ℤ
  | some a, some b => some (a - b)
  | _, _ => none

/-- JS falsy test for a possibly-undefined number: undefined/NaN or 0. -/
def falsyQ : Option ℚ → Bool
  | none => true
  | some v => v = 0

/-- JS `!=` on possibly-NaN values: NaN compares unequal to everything,
itself included. -/
def jsNeZ : Option ℤ → Option ℤ → Bool
  | some a, some b => a ≠ b
  | _, _ => true

/-- An encoded record as the server builds it: the numeric value or time
delta may be NaN (`none`) on the buggy arc-wrap path. -/
inductive EncRec
  | num (v : Option ℤ)
  | adj (d : Option ℚ)
deriving DecidableEq

/-- Encoder loop state: `start`/`guesswhen` begin undefined, `mwhen` is the
`msg.when` field (written only by the `!start` branch), `last` the previous
cursor value, `records` the output so far. -/
structure EncState where
  start : Option ℚ
  guesswhen : Option ℚ
  mwhen : Option ℚ
  last : Option ℤ
  records : List EncRec
deriving DecidableEq

/-- One iteration of `publishHistory`'s delta loop over a history record:
set `start` while it is falsy (subject to `req.when`), emit a `{when: d}`
correction when the quantized actual and guessed clocks differ, then
compute the bucket cursor `target` — reproducing the source's arc wrap
verbatim: a negative arc adds the misspelled (undefined) `req.numarccs`,
so becomes NaN, and the high wrap tests `arc > req.numarcs`, not `>=`,
leaving `arc == numarcs` unwrapped. -/
def encodeStep (numarcs : ℕ) (bands : List ℚ) (reqwhen : Option ℚ)
    (st : EncState) (r : HistRec) : EncState :=
  let arcsize : ℚ := 360 / (numarcs : ℚ)
  let startOK : Bool := falsyQ reqwhen ||
    (match reqwhen with
     | some rw => decide (rw < r.when)
     | none => true)
  let s1 := if falsyQ st.start && startOK then
      { st with start := some r.when, guesswhen := some r.when, mwhen := some r.when }
    else st
  let q0 : Option ℤ := (jsSubQ (some r.when) s1.start).map (fun d => jsRound (d / 1000))
  let q1 : Option ℤ := (jsSubQ s1.guesswhen s1.start).map (fun d => jsRound (d / 1000))
  let s2 := if jsNeZ q0 q1 then
      { s1 with records := EncRec.adj (jsSubQ (some r.when) s1.guesswhen) :: s1.records,
                start := some r.when, guesswhen := some r.when }
    else s1
  let target : Option ℤ :=
    if r.speed = 0 then some (-1)
    else
      let arc0 := jsRound (r.dir / arcsize)
      let arcJs : Option ℤ :=
        if arc0 < 0 then none
        else if (numarcs : ℤ) < arc0 then none
        else some arc0
      arcJs.map (fun a => (serverBandOf bands r.speed : ℤ) * numarcs + a)
  { s2 with records := EncRec.num (jsSubZ target s2.last) :: s2.records,
            last := target,
            guesswhen := jsAddQ s2.guesswhen (some 1000) }

/-- The server-side encoded payload (`step` is the fixed 1000 ms). -/
structure EncMsg where
  mwhen : Option ℚ
  records : List EncRec
deriving DecidableEq

/-- The `publishHistory` body for a `"delta"` request: fold the encoder step over the
history log. -/
def encodeDelta (numarcs : ℕ) (bands : List ℚ) (reqwhen : Option ℚ)
    (history : List HistRec) : EncMsg :=
  let s := history.foldl (encodeStep numarcs bands reqwhen) ⟨none, none, none, some 0, []⟩
  ⟨s.mwhen, s.records.reverse⟩

/-- Translate one encoded record to the decoder's record type; fails on a
NaN payload value. -/
def encRecToDelta : EncRec → Option DeltaRec
  | EncRec.num (some v) => some (DeltaRec.num v)
  | EncRec.num none => none
  | EncRec.adj (some d) => some (DeltaRec.adj d)
  | EncRec.adj none => none

/-- View a fully-defined encoder output as a decoder payload (fails when
`msg.when` was never set or any record is NaN). -/
def encToDeltaMsg (e : EncMsg) : Option DeltaMsg :=
  match e.mwhen, e.records.mapM encRecToDelta with
  | some w, some rs => some ⟨w, 1000, rs⟩
  | _, _ => none

/-- The buckets the aggregator assigns when the raw readings are inserted
directly. -/
def directBuckets (cfg : Cfg) (hist : List HistRec) : List (Option (ℤ × ℕ)) :=
  hist.map (fun r => cellOf cfg (normMsg r.dir (some r.speed) r.when))

/-- The buckets the aggregator assigns to the readings reconstructed by the
delta decode (classification ignores the timestamp). -/
def decodedBuckets (cfg : Cfg) (msg : DeltaMsg) : List (Option (ℤ × ℕ)) :=
  (decodeDelta cfg msg).map (fun t => cellOf cfg (normMsg t.dir t.speed 0))

/-- The aggregator invariant: the grid has `numarcs` rows, the queue is
non-decreasing in timestamp with every stored direction normalized into
`[0, 360)`, every cell (present or absent) counts exactly the queued
readings classified into it, the sentinel counts the zero-speed readings,
and the bucket counts sum to the queue length. -/
def Inv (cfg : Cfg) (st : RoseState) : Prop :=
  st.rose.length = cfg.numarcs ∧
  List.Pairwise (fun a b => a.when ≤ b.when) st.q ∧
  (∀ m ∈ st.q, 0 ≤ m.dir ∧ m.dir < 360) ∧
  (∀ a b, cellVal st.rose a b = cellCount cfg st.q a b) ∧
  st.rose0 = zeroCount cfg st.q ∧
  sumCounts st = st.q.length

/-! ## Concrete codec instances used to settle the round-trip and
band-overflow claims -/

/-- An 18-arc configuration with bands 5 and the 200 sentinel. -/
def cfgC2 : Cfg := ⟨18, [5, 200], 0, 0⟩

/-- A one-reading history log: direction 0, speed 1, epoch-ms 2000. -/
def histC2 : List HistRec := [⟨0, 1, 2000⟩]

/-- An 18-arc configuration whose bands array has a single (sentinel)
entry. -/
def cfgC3 : Cfg := ⟨18, [200], 0, 0⟩

/-- A delta payload whose single record drives the cursor to 18, i.e. band
`floor(18/18) = 1`, beyond the one-entry bands array of `cfgC3`. -/
def msgC3 : DeltaMsg := ⟨0, 1000, [DeltaRec.num 18]⟩

/-- Two concrete `#update` calls (one real-speed, one zero-speed). -/
def callsC1 : List Call := [⟨0, 45, some 5, 1000⟩, ⟨0, 100, some 0, 2000⟩]

/-- An 18-arc configuration with `max_data_count = 2`. -/
def cfgC5 : Cfg := ⟨18, [5, 200], 2, 0⟩

/-- Three strictly-increasing-timestamp calls, one more than `cfgC5`'s
count cap. -/
def callsC5 : List Call :=
  [⟨0, 45, some 5, 1000⟩, ⟨0, 45, some 5, 2000⟩, ⟨0, 100, some 1, 3000⟩]

/-- A one-arc configuration. -/
def cfgC6 : Cfg := ⟨1, [200], 0, 0⟩

/-- A (deliberately corrupted) state whose sentinel count 5 exceeds its
queue length, to exercise the `maxfreq` throw. -/
def stC6 : RoseState := ⟨[⟨0, some 0, 500⟩], [[]], 5, false⟩

/-- Ordering by timestamp of queued readings. -/
def leWhen (a b : Msg) : Prop := a.when ≤ b.when

/-! ## Normalization lemmas -/

/-- For a non-negative dividend the JS remainder by 360 lies in `[0, 360)`. -/
theorem jsFmod_range_of_nonneg (a : ℚ) (ha : 0 ≤ a) :
    0 ≤ jsFmod a 360 ∧ jsFmod a 360 < 360 := by
  have hdiv : (0 : ℚ) ≤ a / 360 := by positivity
  have hfl : (⌊a / 360⌋ : ℚ) ≤ a / 360 := Int.floor_le _
  have hfu : a / 360 < (⌊a / 360⌋ : ℚ) + 1 := Int.lt_floor_add_one _
  unfold jsFmod jsTrunc
  rw [if_pos hdiv]
  constructor
  · nlinarith
  · nlinarith

/-- The JS remainder by 360 always exceeds `-360`. -/
theorem jsFmod_gt_neg (a : ℚ) : -360 < jsFmod a 360 := by
  by_cases ha : 0 ≤ a
  · have h := jsFmod_range_of_nonneg a ha
    linarith [h.1]
  · have hdiv : ¬ (0 : ℚ) ≤ a / 360 := by
      intro h
      exact ha (by nlinarith)
    have hcu : (⌈a / 360⌉ : ℚ) < a / 360 + 1 := Int.ceil_lt_add_one _
    unfold jsFmod jsTrunc
    rw [if_neg hdiv]
    nlinarith

/-- The normalized direction `((dir % 360) + 360) % 360` lies in `[0, 360)`. -/
theorem normDir_range (d : ℚ) : 0 ≤ normDir d ∧ normDir d < 360 := by
  have h1 := jsFmod_gt_neg d
  exact jsFmod_range_of_nonneg (jsFmod d 360 + 360) (by linarith)

/-- The direction stored by `normMsg` lies in `[0, 360)`. -/
theorem normMsg_dir_range (dir : ℚ) (speed : JsNum) (when : ℚ) :
    0 ≤ (normMsg dir speed when).dir ∧ (normMsg dir speed when).dir < 360 := by
  unfold normMsg
  dsimp only
  split
  · exact ⟨le_refl 0, by norm_num⟩
  · exact normDir_range dir

/-- For a direction in `[0, 360)` the wrapped arc index is in `[0, numarcs)`. -/
theorem arcOfZ_range (cfg : Cfg) (d : ℚ) (hn : 0 < cfg.numarcs)
    (h0 : 0 ≤ d) (h1 : d < 360) :
    0 ≤ arcOfZ cfg d ∧ arcOfZ cfg d < cfg.numarcs := by
  have hw : (0 : ℚ) < arcWidth cfg := by
    unfold arcWidth
    positivity
  have hx0 : (0 : ℚ) ≤ d / arcWidth cfg := by positivity
  have hxn : d / arcWidth cfg < (cfg.numarcs : ℚ) := by
    rw [div_lt_iff₀ hw]
    unfold arcWidth
    rw [mul_div_cancel₀ _ (by exact_mod_cast hn.ne' : ((cfg.numarcs : ℚ) ≠ 0))]
    exact h1
  have ha0 : 0 ≤ jsRound (d / arcWidth cfg) := by
    unfold jsRound
    exact Int.floor_nonneg.2 (by linarith)
  have han : jsRound (d / arcWidth cfg) ≤ (cfg.numarcs : ℤ) := by
    unfold jsRound
    have : d / arcWidth cfg + 1/2 < (cfg.numarcs : ℚ) + 1 := by linarith
    have hlt : ⌊d / arcWidth cfg + 1/2⌋ < (cfg.numarcs : ℤ) + 1 := by
      rw [Int.floor_lt]
      push_cast
      linarith
    omega
  unfold arcOfZ
  dsimp only
  rw [if_neg (by omega)]
  by_cases hge : (cfg.numarcs : ℤ) ≤ jsRound (d / arcWidth cfg)
  · rw [if_pos hge]
    omega
  · rw [if_neg hge]
    omega

/-! ## Queue insertion lemmas -/

/-- The backward scan only ever splices the new reading into the queue. -/
theorem qScan_shape (m : Msg) (q : List Msg) :
    ∀ i q1, qScan m q i = some q1 → ∃ n, q1 = q.take n ++ m :: q.drop n := by
  intro i
  induction i with
  | zero =>
    intro q1 h
    simp only [qScan] at h
    split at h
    · exact ⟨0, by simpa using (Option.some_injective _ h).symm⟩
    · split at h
      · exact absurd h (by simp)
      · exact ⟨0, by simpa using (Option.some_injective _ h).symm⟩
  | succ i ih =>
    intro q1 h
    simp only [qScan] at h
    split at h
    · exact ⟨0, by simpa using (Option.some_injective _ h).symm⟩
    · split at h
      · exact absurd h (by simp)
      · split at h
        · exact ⟨0, by simpa using (Option.some_injective _ h).symm⟩
        · split at h
          · exact ⟨i + 1, (Option.some_injective _ h).symm⟩
          · exact ih q1 h

/-- The function `queueInsert` only ever splices the new reading into the queue. -/
theorem queueInsert_shape (m : Msg) (q : List Msg) (q1 : List Msg)
    (h : queueInsert m q = some q1) : ∃ n, q1 = q.take n ++ m :: q.drop n := by
  unfold queueInsert at h
  split at h
  · refine ⟨q.length, ?_⟩
    have := (Option.some_injective _ h).symm
    simpa using this
  · split at h
    · refine ⟨q.length, ?_⟩
      have := (Option.some_injective _ h).symm
      simpa using this
    · exact qScan_shape m q _ _ h

/-- Splicing a reading adds one to every predicate count. -/
theorem insertAt_countP (q : List Msg) (m : Msg) (n : ℕ) (p : Msg → Bool) :
    (q.take n ++ m :: q.drop n).countP p = q.countP p + if p m then 1 else 0 := by
  rw [List.countP_append, List.countP_cons]
  conv_rhs => rw [← List.take_append_drop n q, List.countP_append]
  omega

/-- Splicing a reading adds one to the length. -/
theorem insertAt_length (q : List Msg) (m : Msg) (n : ℕ) :
    (q.take n ++ m :: q.drop n).length = q.length + 1 := by
  simp only [List.length_append, List.length_cons]
  conv_rhs => rw [← List.take_append_drop n q, List.length_append]
  omega

/-- Everything in a spliced queue was there before or is the new reading. -/
theorem insertAt_mem (q : List Msg) (m : Msg) (n : ℕ) (x : Msg)
    (hx : x ∈ q.take n ++ m :: q.drop n) : x ∈ q ∨ x = m := by
  rcases List.mem_append.1 hx with h | h
  · exact Or.inl (List.mem_of_mem_take h)
  · rcases List.mem_cons.1 h with h | h
    · exact Or.inr h
    · exact Or.inl (List.mem_of_mem_drop h)

/-- Inserting a reading between a smaller-or-equal front and
larger-or-equal back keeps the queue sorted. -/
theorem sorted_insertAt (q : List Msg) (m : Msg) (n : ℕ)
    (hs : List.Pairwise leWhen q)
    (h1 : ∀ x ∈ q.take n, x.when ≤ m.when)
    (h2 : ∀ y ∈ q.drop n, m.when ≤ y.when) :
    List.Pairwise leWhen (q.take n ++ m :: q.drop n) := by
  have hsplit : List.Pairwise leWhen (q.take n ++ q.drop n) := by
    rw [List.take_append_drop]
    exact hs
  rw [List.pairwise_append] at hsplit
  obtain ⟨hst, hsd, hcross⟩ := hsplit
  rw [List.pairwise_append]
  refine ⟨hst, List.pairwise_cons.2 ⟨h2, hsd⟩, ?_⟩
  intro x hx y hy
  rcases List.mem_cons.1 hy with rfl | hy1
  · exact h1 x hx
  · exact hcross x hx y hy1

/-- In a sorted queue every member is at most the last element. -/
theorem sorted_le_getLast (q : List Msg) (tl : Msg)
    (hs : List.Pairwise leWhen q) (h : q.getLast? = some tl) :
    ∀ x ∈ q, x.when ≤ tl.when := by
  induction q with
  | nil => simp at h
  | cons a t ih =>
    intro x hx
    rcases t with _ | ⟨b, t2⟩
    · simp at h
      rcases List.mem_singleton.1 hx with rfl
      rw [h]
    · have hlast : (b :: t2).getLast? = some tl := by
        rw [← h]
        rfl
      have htail := (List.pairwise_cons.1 hs).2
      rcases List.mem_cons.1 hx with rfl | hx2
      · have hmem : tl ∈ b :: t2 := by
          have hg := List.getLast?_eq_getElem? (b :: t2)
          rw [hlast] at hg
          have hlt : (b :: t2).length - 1 < (b :: t2).length := by
            simp
          rw [List.getElem?_eq_getElem hlt] at hg
          rw [show tl = (b :: t2)[(b :: t2).length - 1] from Option.some_injective _ hg]
          exact List.getElem_mem _
        exact (List.pairwise_cons.1 hs).1 tl hmem
      · exact ih htail hlast x hx2

/-- The backward scan from a position whose suffix is at or after the new
reading preserves sortedness. -/
theorem qScan_sorted (m : Msg) (q : List Msg)
    (hs : List.Pairwise leWhen q) :
    ∀ i, i < q.length → (∀ y ∈ q.drop i, m.when ≤ y.when) →
      ∀ q1, qScan m q i = some q1 → List.Pairwise leWhen q1 := by
  intro i
  induction i with
  | zero =>
    intro hi hpre q1 h
    have hgoal : List.Pairwise leWhen (m :: q) :=
      List.pairwise_cons.2 ⟨fun y hy => hpre y (by simpa using hy), hs⟩
    simp only [qScan] at h
    split at h
    · rw [show q1 = m :: q from by simpa using (Option.some_injective _ h).symm]
      exact hgoal
    · split at h
      · exact absurd h (by simp)
      · rw [show q1 = m :: q from by simpa using (Option.some_injective _ h).symm]
        exact hgoal
  | succ i ih =>
    intro hi hpre q1 h
    simp only [qScan] at h
    split at h
    · rename_i heq
      rw [List.getElem?_eq_none_iff] at heq
      omega
    · split at h
      · exact absurd h (by simp)
      · split at h
        · rename_i heq
          rw [List.getElem?_eq_none_iff] at heq
          omega
        · rename_i r hr hdup p hp
          have hip : i < q.length := by omega
          have hdropi : q.drop i = q[i] :: q.drop (i + 1) :=
            List.drop_eq_getElem_cons hip
          have hpq : q[i] = p := by
            have := hp
            rw [List.getElem?_eq_getElem hip] at this
            exact Option.some_injective _ this
          split at h
          · rename_i hlt
            rw [show q1 = q.take (i + 1) ++ m :: q.drop (i + 1) from
              (Option.some_injective _ h).symm]
            apply sorted_insertAt q m (i + 1) hs
            · intro x hx
              have htk : q.take (i + 1) = q.take i ++ [p] := by
                rw [List.take_succ, List.getElem?_eq_getElem hip, hpq]
                rfl
              rw [htk] at hx
              rcases List.mem_append.1 hx with hx1 | hx1
              · have hsplit : List.Pairwise leWhen (q.take i ++ q.drop i) := by
                  rw [List.take_append_drop]
                  exact hs
                rw [List.pairwise_append] at hsplit
                have hpmem : p ∈ q.drop i := by
                  rw [hdropi, hpq]
                  exact List.mem_cons_self _ _
                have := hsplit.2.2 x hx1 p hpmem
                exact le_of_lt (lt_of_le_of_lt this hlt)
              · rcases List.mem_singleton.1 hx1 with rfl
                exact le_of_lt hlt
            · intro y hy
              exact hpre y hy
          · rename_i hnlt
            apply ih hip ?_ q1 h
            intro y hy
            rw [hdropi] at hy
            rcases List.mem_cons.1 hy with rfl | hy2
            · rw [hpq]
              exact le_of_not_lt hnlt
            · exact hpre y hy2

/-- Insertion via `queueInsert` preserves sortedness of the queue. -/
theorem queueInsert_sorted (m : Msg) (q : List Msg) (q1 : List Msg)
    (hs : List.Pairwise leWhen q) (h : queueInsert m q = some q1) :
    List.Pairwise leWhen q1 := by
  unfold queueInsert at h
  split at h
  · rename_i hnone
    rw [List.getLast?_eq_none_iff] at hnone
    subst hnone
    rw [show q1 = [m] from by simpa using (Option.some_injective _ h).symm]
    exact List.pairwise_singleton _ _
  · rename_i tl htl
    split at h
    · rename_i hlt
      rw [show q1 = q ++ [m] from (Option.some_injective _ h).symm]
      rw [List.pairwise_append]
      refine ⟨hs, List.pairwise_singleton _ _, ?_⟩
      intro x hx y hy
      rcases List.mem_singleton.1 hy with rfl
      exact le_of_lt (lt_of_le_of_lt (sorted_le_getLast q tl hs htl x hx) hlt)
    · rename_i hnlt
      have hne : q ≠ [] := by
        intro hq
        rw [hq] at htl
        simp at htl
      have hlen : 0 < q.length := List.length_pos.2 hne
      apply qScan_sorted m q hs (q.length - 1) (by omega) ?_ q1 h
      intro y hy
      have hdropi := List.drop_eq_getElem_cons (show q.length - 1 < q.length by omega)
      rw [show q.length - 1 + 1 = q.length from by omega] at hdropi
      have htl2 : q[q.length - 1] = tl := by
        have := List.getLast?_eq_getElem? q
        rw [htl, List.getElem?_eq_getElem (by omega : q.length - 1 < q.length)] at this
        exact (Option.some_injective _ this).symm
      rw [hdropi, List.drop_length] at hy
      rcases List.mem_singleton.1 hy with rfl
      rw [htl2]
      exact le_of_not_lt hnlt

/-- A duplicate has the same timestamp as the incoming reading. -/
theorem isDup_when (r m : Msg) (h : isDup r m = true) : r.when = m.when := by
  unfold isDup at h
  rw [Bool.and_eq_true, Bool.and_eq_true] at h
  exact of_decide_eq_true h.1.1

/-- The backward scan finds a duplicate sitting at or below its starting
index in a sorted queue. -/
theorem qScan_dup (m : Msg) (q : List Msg) (hs : List.Pairwise leWhen q)
    (j : ℕ) (r : Msg) (hj : q[j]? = some r) (hd : isDup r m = true) :
    ∀ i, j ≤ i → i < q.length → qScan m q i = none := by
  have hjlt : j < q.length := by
    by_contra hge
    rw [List.getElem?_eq_none_iff.2 (by omega)] at hj
    simp at hj
  have hrj : q[j] = r := by
    rw [List.getElem?_eq_getElem hjlt] at hj
    exact Option.some_injective _ hj
  intro i
  induction i with
  | zero =>
    intro hji hi
    have hj0 : j = 0 := by omega
    subst hj0
    simp [qScan, hj, hd]
  | succ i ih =>
    intro hji hi
    simp only [qScan]
    rw [List.getElem?_eq_getElem hi]
    by_cases hdup : isDup q[i + 1] m = true
    · simp [hdup]
    · have hji2 : j ≤ i := by
        rcases Nat.lt_or_ge j (i + 1) with hlt | hge
        · omega
        · exfalso
          have : j = i + 1 := by omega
          subst this
          rw [hrj] at hdup
          exact hdup hd
      have hilt : i < q.length := by omega
      rw [List.getElem?_eq_getElem hilt]
      have hple : r.when ≤ q[i].when := by
        rcases Nat.lt_or_ge j i with hlt | hge
        · have hpg := (List.pairwise_iff_getElem.1 hs) j i hjlt hilt hlt
          rw [hrj] at hpg
          exact hpg
        · have : j = i := by omega
          subst this
          rw [hrj]
      have hnlt : ¬ q[i].when < m.when := by
        rw [← isDup_when r m hd]
        exact not_lt.2 hple
      simp only [hdup, if_false, hnlt, Bool.false_eq_true]
      exact ih hji2 hilt

/-- Inserting an exact duplicate of a queued reading into a sorted queue is
rejected by the scan. -/
theorem queueInsert_dup (m : Msg) (q : List Msg)
    (hs : List.Pairwise leWhen q) (r : Msg) (hr : r ∈ q)
    (hd : isDup r m = true) : queueInsert m q = none := by
  obtain ⟨j, hjlt, hrj⟩ := List.mem_iff_getElem.1 hr
  have hj : q[j]? = some r := by
    rw [List.getElem?_eq_getElem hjlt, hrj]
  unfold queueInsert
  have hne : q ≠ [] := List.ne_nil_of_length_pos (by omega)
  match htl : q.getLast? with
  | none =>
    rw [List.getLast?_eq_none_iff] at htl
    exact absurd htl hne
  | some tl =>
    have hrle : r.when ≤ tl.when := sorted_le_getLast q tl hs htl r hr
    have hnlt : ¬ tl.when < m.when := by
      rw [← isDup_when r m hd]
      exact not_lt.2 hrle
    show (if tl.when < m.when then some (q ++ [m]) else qScan m q (q.length - 1)) = none
    rw [if_neg hnlt]
    exact qScan_dup m q hs j r hj hd (q.length - 1) (by omega) (by omega)

/-! ## Grid lemmas -/

/-- Sum after overwriting one entry, subtraction form. -/
theorem sum_set_sub (l : List ℤ) (i : ℕ) (x c : ℤ) (h : l[i]? = some c) :
    (l.set i x).sum = l.sum - c + x := by
  have hi : i < l.length := by
    by_contra hge
    rw [List.getElem?_eq_none_iff.2 (by omega)] at h
    simp at h
  have hc : l[i] = c := by
    rw [List.getElem?_eq_getElem hi] at h
    exact Option.some_injective _ h
  have hdec : l.sum = (l.take i).sum + (l[i] + (l.drop (i + 1)).sum) := by
    conv_lhs => rw [← List.take_append_drop i l, List.sum_append,
      List.drop_eq_getElem_cons hi, List.sum_cons]
  rw [List.sum_set, if_pos hi, hdec, hc]
  ring

/-- A nonzero cell value certifies the cell exists with that value. -/
theorem cellGet_of_ne_zero (rose : List (List ℤ)) (a : ℤ) (b : ℕ)
    (h : cellVal rose a b ≠ 0) : cellGet rose a b = some (cellVal rose a b) := by
  cases hg : cellGet rose a b with
  | none =>
    exfalso
    apply h
    unfold cellVal
    rw [hg]
    rfl
  | some c =>
    unfold cellVal
    rw [hg]
    rfl

/-- Restating `cellGet` as an `Option.bind`, convenient for rewriting. -/
theorem cellGet_eq_bind (rose : List (List ℤ)) (a : ℤ) (b : ℕ) :
    cellGet rose a b =
      (if 0 ≤ a then rose[a.toNat]? else none).bind (fun row => row[b]?) := by
  unfold cellGet
  cases (if 0 ≤ a then rose[a.toNat]? else none) <;> rfl

/-- Writing a cell with `setCell` does not change the number of rows. -/
theorem length_setCell (rose : List (List ℤ)) (a : ℤ) (b : ℕ) (x : ℤ) :
    (setCell rose a b x).length = rose.length := by
  unfold setCell
  split
  · split
    · rfl
    · exact List.length_set _ _ _
  · rfl

/-- Pointwise description of `setCell` at an existing cell. -/
theorem cellVal_setCell (rose : List (List ℤ)) (a : ℤ) (b : ℕ) (x c : ℤ)
    (h : cellGet rose a b = some c) (a' : ℤ) (b' : ℕ) :
    cellVal (setCell rose a b x) a' b' =
      if a' = a ∧ b' = b then x else cellVal rose a' b' := by
  have ha : 0 ≤ a := by
    by_contra hneg
    unfold cellGet at h
    rw [if_neg hneg] at h
    simp at h
  obtain ⟨row, hrow, hcell⟩ : ∃ row, rose[a.toNat]? = some row ∧ row[b]? = some c := by
    unfold cellGet at h
    rw [if_pos ha] at h
    cases hr : rose[a.toNat]? with
    | none => rw [hr] at h; simp at h
    | some row => exact ⟨row, rfl, by rw [hr] at h; exact h⟩
  have hlt : a.toNat < rose.length := by
    by_contra hge
    rw [List.getElem?_eq_none_iff.2 (by omega)] at hrow
    simp at hrow
  have hblt : b < row.length := by
    by_contra hge
    rw [List.getElem?_eq_none_iff.2 (by omega)] at hcell
    simp at hcell
  have hset : setCell rose a b x = rose.set a.toNat (row.set b x) := by
    unfold setCell
    rw [if_pos ha, hrow]
  rw [hset]
  unfold cellVal
  rw [cellGet_eq_bind, cellGet_eq_bind]
  by_cases ha' : 0 ≤ a'
  · rw [if_pos ha', if_pos ha', List.getElem?_set]
    by_cases haa : a.toNat = a'.toNat
    · have haa2 : a' = a := by omega
      subst haa2
      rw [if_pos haa, if_pos hlt, Option.some_bind, List.getElem?_set]
      by_cases hbb : b = b'
      · subst hbb
        rw [if_pos rfl, if_pos hblt, if_pos ⟨rfl, rfl⟩]
        rfl
      · rw [if_neg hbb, if_neg (by intro hh; exact hbb hh.2.symm), hrow,
          Option.some_bind]
    · have haa2 : ¬ a' = a := by omega
      rw [if_neg haa, if_neg (by intro hh; exact haa2 hh.1)]
  · rw [if_neg ha', if_neg ha', if_neg (by intro hh; exact ha' (hh.1 ▸ ha))]

/-- Sum description of `setCell` at an existing cell. -/
theorem roseSum_setCell (rose : List (List ℤ)) (a : ℤ) (b : ℕ) (x c : ℤ)
    (h : cellGet rose a b = some c) :
    roseSum (setCell rose a b x) = roseSum rose - c + x := by
  have ha : 0 ≤ a := by
    by_contra hneg
    unfold cellGet at h
    rw [if_neg hneg] at h
    simp at h
  obtain ⟨row, hrow, hcell⟩ : ∃ row, rose[a.toNat]? = some row ∧ row[b]? = some c := by
    unfold cellGet at h
    rw [if_pos ha] at h
    cases hr : rose[a.toNat]? with
    | none => rw [hr] at h; simp at h
    | some row => exact ⟨row, rfl, by rw [hr] at h; exact h⟩
  unfold setCell
  rw [if_pos ha, hrow]
  unfold roseSum
  rw [List.map_set]
  have hmap : (rose.map List.sum)[a.toNat]? = some row.sum := by
    rw [List.getElem?_map, hrow]
    rfl
  rw [sum_set_sub _ _ _ _ hmap, sum_set_sub _ _ _ _ hcell]
  ring

/-- Reading an extended row at any index, as a default-0 value. -/
theorem extendRow_getD (row : List ℤ) (band j : ℕ) :
    (extendRow row band)[j]?.getD 0 = row[j]?.getD 0 := by
  unfold extendRow
  by_cases hj : j < row.length
  · rw [List.getElem?_append_left hj]
  · rw [List.getElem?_append_right (by omega), List.getElem?_replicate]
    rw [List.getElem?_eq_none_iff.2 (by omega : row.length ≤ j)]
    split <;> rfl

/-- An extended row contains index `band`. -/
theorem extendRow_lt_length (row : List ℤ) (band : ℕ) :
    band < (extendRow row band).length := by
  unfold extendRow
  rw [List.length_append, List.length_replicate]
  omega

/-- Extending a row with zero cells does not change its sum. -/
theorem extendRow_sum (row : List ℤ) (band : ℕ) :
    (extendRow row band).sum = row.sum := by
  unfold extendRow
  rw [List.sum_append, List.sum_replicate]
  simp

/-- Pointwise description of replacing one whole row. -/
theorem cellVal_set_row (rose : List (List ℤ)) (a : ℤ) (row' : List ℤ)
    (ha : 0 ≤ a) (hlt : a.toNat < rose.length) (a' : ℤ) (b' : ℕ) :
    cellVal (rose.set a.toNat row') a' b' =
      if a' = a then row'[b']?.getD 0 else cellVal rose a' b' := by
  unfold cellVal
  rw [cellGet_eq_bind, cellGet_eq_bind]
  by_cases ha' : 0 ≤ a'
  · rw [if_pos ha', if_pos ha', List.getElem?_set]
    by_cases haa : a.toNat = a'.toNat
    · have haa2 : a' = a := by omega
      subst haa2
      rw [if_pos haa, if_pos hlt, Option.some_bind, if_pos rfl]
    · have haa2 : ¬ a' = a := by omega
      rw [if_neg haa, if_neg haa2]
  · rw [if_neg ha', if_neg ha', if_neg (by intro hh; exact ha' (hh ▸ ha))]

/-- Sum description of replacing one whole row. -/
theorem roseSum_set (rose : List (List ℤ)) (i : ℕ) (row row' : List ℤ)
    (h : rose[i]? = some row) :
    roseSum (rose.set i row') = roseSum rose - row.sum + row'.sum := by
  unfold roseSum
  rw [List.map_set]
  have hmap : (rose.map List.sum)[i]? = some row.sum := by
    rw [List.getElem?_map, h]
    rfl
  rw [sum_set_sub _ _ _ _ hmap]

/-! ## Eviction and insertion specs -/

/-- Injectivity of `Except.ok`. -/
theorem exceptOk_inj {e b : Type} {x y : b} (h : (Except.ok x : Except e b) = Except.ok y) :
    x = y := by
  injection h

/-- What a successful bucket decrement does to the grid. -/
theorem evictDec_spec (cfg : Cfg) (m : Msg) (rose : List (List ℤ)) (rose0 : ℤ)
    (rose1 : List (List ℤ)) (rose01 : ℤ)
    (h : evictDec cfg m rose rose0 = Except.ok (rose1, rose01)) :
    rose1.length = rose.length ∧
    (∀ a b, cellVal rose1 a b =
      cellVal rose a b - (if cellOf cfg m = some (a, b) then 1 else 0)) ∧
    rose01 = rose0 - (if cellOf cfg m = none then 1 else 0) ∧
    roseSum rose1 + rose01 = roseSum rose + rose0 - 1 := by
  unfold evictDec at h
  cases hc : cellOf cfg m with
  | none =>
    rw [hc] at h
    have h2 : (Except.ok (rose, rose0 - 1) : Except UpdErr _) = Except.ok (rose1, rose01) := h
    have h3 := exceptOk_inj h2
    injection h3 with h4 h5
    subst h4
    subst h5
    refine ⟨rfl, ?_, by simp, by ring⟩
    intro a b
    rw [if_neg (by simp)]
    ring
  | some ab =>
    obtain ⟨a0, b0⟩ := ab
    rw [hc] at h
    have h2 : (match cellGet rose a0 b0 with
      | none => Except.error UpdErr.missingCell
      | some c => Except.ok (setCell rose a0 b0 (c - 1), rose0)) =
        Except.ok (rose1, rose01) := h
    cases hg : cellGet rose a0 b0 with
    | none =>
      rw [hg] at h2
      exact absurd h2 (by simp)
    | some c =>
      rw [hg] at h2
      have h3 := exceptOk_inj h2
      injection h3 with h4 h5
      subst h4
      subst h5
      have hcv : cellVal rose a0 b0 = c := by
        unfold cellVal
        rw [hg]
        rfl
      refine ⟨length_setCell _ _ _ _, ?_, by simp, ?_⟩
      · intro a b
        rw [cellVal_setCell rose a0 b0 (c - 1) c hg a b]
        by_cases hab : a = a0 ∧ b = b0
        · obtain ⟨rfl, rfl⟩ := hab
          rw [if_pos ⟨rfl, rfl⟩, if_pos rfl, hcv]
        · rw [if_neg hab, if_neg ?_]
          · ring
          · intro hh
            have hhp := Option.some_injective _ hh
            apply hab
            exact ⟨congrArg Prod.fst hhp.symm, congrArg Prod.snd hhp.symm⟩
      · rw [roseSum_setCell rose a0 b0 (c - 1) c hg]
        ring

/-- What the eviction loop does when it returns normally: it drops a prefix
of the queue and removes exactly those readings from their buckets. -/
theorem evictLoop_spec (cfg : Cfg) (now : ℚ) :
    ∀ (q : List Msg) (rose : List (List ℤ)) (rose0 : ℤ) q2 rose2 rose02,
      evictLoop cfg now q rose rose0 = Except.ok (q2, rose2, rose02) →
      ∃ k, k ≤ q.length ∧ q2 = q.drop k ∧ rose2.length = rose.length ∧
        (∀ a b, cellVal rose2 a b =
          cellVal rose a b - cellCount cfg (q.take k) a b) ∧
        rose02 = rose0 - zeroCount cfg (q.take k) ∧
        roseSum rose2 + rose02 = roseSum rose + rose0 - k ∧
        (q ≠ [] → q2 ≠ []) := by
  intro q
  induction q with
  | nil =>
    intro rose rose0 q2 rose2 rose02 h
    unfold evictLoop at h
    split at h
    · exact absurd h (by simp)
    · have h3 := exceptOk_inj h
      injection h3 with hq2 hr2
      injection hr2 with hrose2 hrose02
      subst hq2; subst hrose2; subst hrose02
      refine ⟨0, by omega, rfl, rfl, ?_, by simp [zeroCount], by simp, by simp⟩
      intro a b
      simp [cellCount]
  | cons m rest ih =>
    intro rose rose0 q2 rose2 rose02 h
    unfold evictLoop at h
    split at h
    · rename_i hcond
      cases hd : evictDec cfg m rose rose0 with
      | error e =>
        rw [hd] at h
        exact absurd h (by simp)
      | ok pr =>
        obtain ⟨rose1, rose01⟩ := pr
        rw [hd] at h
        have h3 : evictLoop cfg now rest rose1 rose01 =
            Except.ok (q2, rose2, rose02) := h
        obtain ⟨hlen1, hcell1, hz1, hsum1⟩ :=
          evictDec_spec cfg m rose rose0 rose1 rose01 hd
        obtain ⟨k, hk, hq2, hlen2, hcell2, hz2, hsum2, hne2⟩ :=
          ih rose1 rose01 q2 rose2 rose02 h3
        have hrestne : rest ≠ [] := by
          intro hrest
          subst hrest
          have hAge : cfg.maxAge ≠ 0 := by
            rcases hcond with hcnd | hcnd
            · exfalso
              have hone : cfg.maxCount < 1 := by simpa using hcnd.2
              exact hcnd.1 (by omega)
            · exact hcnd.1
          rw [show evictLoop cfg now [] rose1 rose01 =
            Except.error UpdErr.emptyQueue from by
              unfold evictLoop
              rw [if_pos hAge]] at h3
          exact absurd h3 (by simp)
        refine ⟨k + 1, by simp; omega, ?_, by rw [hlen2, hlen1], ?_, ?_, ?_, ?_⟩
        · rw [hq2, List.drop_succ_cons]
        · intro a b
          rw [hcell2 a b, hcell1 a b, List.take_succ_cons]
          unfold cellCount
          rw [List.countP_cons]
          by_cases hcm : cellOf cfg m = some (a, b)
          · rw [if_pos hcm, if_pos (by simpa using hcm)]
            push_cast
            ring
          · rw [if_neg hcm, if_neg (by simpa using hcm)]
            push_cast
            ring
        · rw [hz2, hz1, List.take_succ_cons]
          unfold zeroCount
          rw [List.countP_cons]
          by_cases hcm : cellOf cfg m = none
          · rw [if_pos hcm, if_pos (by simpa using hcm)]
            push_cast
            ring
          · rw [if_neg hcm, if_neg (by simpa using hcm)]
            push_cast
            ring
        · rw [hsum2, hsum1]
          push_cast
          ring
        · intro _
          exact hne2 hrestne
    · have h3 := exceptOk_inj h
      injection h3 with hq2 hr2
      injection hr2 with hrose2 hrose02
      subst hq2; subst hrose2; subst hrose02
      refine ⟨0, by omega, rfl, rfl, ?_, by simp [zeroCount], by simp, ?_⟩
      · intro a b
        simp [cellCount]
      · intro _
        simp

/-- An `addMsg` success splits into the sentinel or a concrete cell write. -/
theorem addMsg_spec (cfg : Cfg) (m : Msg) (rose : List (List ℤ)) (rose0 : ℤ)
    (rose3 : List (List ℤ)) (rose03 : ℤ)
    (h : addMsg cfg m rose rose0 = some (rose3, rose03)) :
    rose3.length = rose.length ∧
    (∀ a b, cellVal rose3 a b =
      cellVal rose a b + (if cellOf cfg m = some (a, b) then 1 else 0)) ∧
    rose03 = rose0 + (if cellOf cfg m = none then 1 else 0) ∧
    roseSum rose3 + rose03 = roseSum rose + rose0 + 1 := by
  unfold addMsg at h
  cases hc : cellOf cfg m with
  | none =>
    rw [hc] at h
    have h2 : (some (rose, rose0 + 1) : Option _) = some (rose3, rose03) := h
    have h3 := Option.some_injective _ h2
    injection h3 with h4 h5
    subst h4
    subst h5
    refine ⟨rfl, ?_, by simp, by ring⟩
    intro a b
    rw [if_neg (by simp)]
    ring
  | some ab =>
    obtain ⟨a0, b0⟩ := ab
    rw [hc] at h
    have h2 : (match (if 0 ≤ a0 then rose[a0.toNat]? else none) with
      | none => (none : Option (List (List ℤ) × ℤ))
      | some row =>
        some (rose.set a0.toNat
          ((extendRow row b0).set b0 ((extendRow row b0).getD b0 0 + 1)), rose0)) =
        some (rose3, rose03) := h
    cases hr : (if 0 ≤ a0 then rose[a0.toNat]? else none) with
    | none =>
      rw [hr] at h2
      exact absurd h2 (by simp)
    | some row =>
      rw [hr] at h2
      have h3 := Option.some_injective _ h2
      injection h3 with h4 h5
      subst h4
      subst h5
      have ha0 : 0 ≤ a0 := by
        by_contra hneg
        rw [if_neg hneg] at hr
        simp at hr
      rw [if_pos ha0] at hr
      have hlt : a0.toNat < rose.length := by
        by_contra hge
        rw [List.getElem?_eq_none_iff.2 (by omega)] at hr
        simp at hr
      have hcv : cellVal rose a0 b0 = row[b0]?.getD 0 := by
        unfold cellVal
        rw [cellGet_eq_bind, if_pos ha0, hr, Option.some_bind]
      have hgetd : (extendRow row b0).getD b0 0 = row[b0]?.getD 0 := by
        rw [List.getD_eq_getElem?_getD, extendRow_getD]
      have hblt := extendRow_lt_length row b0
      have hrow1get : (extendRow row b0)[b0]? = some (row[b0]?.getD 0) := by
        rw [List.getElem?_eq_getElem hblt]
        have h5 := extendRow_getD row b0 b0
        rw [List.getElem?_eq_getElem hblt] at h5
        exact congrArg some (by simpa using h5)
      refine ⟨List.length_set _ _ _, ?_, by simp, ?_⟩
      · intro a b
        rw [cellVal_set_row rose a0 _ ha0 hlt a b]
        by_cases hcm : cellOf cfg m = some (a, b)
        · have hpair : (a0, b0) = (a, b) := by
            rw [hc] at hcm
            exact Option.some_injective _ hcm
          have haa : a0 = a := congrArg Prod.fst hpair
          have hbb : b0 = b := congrArg Prod.snd hpair
          rw [if_pos (congrArg some hpair), ← haa, ← hbb, if_pos rfl,
            List.getElem?_set, if_pos rfl, if_pos hblt, hgetd, ← hcv]
          rfl
        · rw [if_neg (fun hh => hcm (hc.trans hh)), add_zero]
          by_cases haa : a = a0
          · have hbb : ¬ b0 = b := by
              intro hbb
              exact hcm (by rw [hc, haa, hbb])
            rw [if_pos haa, List.getElem?_set, if_neg hbb, extendRow_getD, haa]
            unfold cellVal
            rw [cellGet_eq_bind, if_pos ha0, hr, Option.some_bind]
          · rw [if_neg haa]
      · rw [roseSum_set rose a0.toNat row _ hr,
          sum_set_sub _ _ _ _ hrow1get, extendRow_sum, hgetd]
        ring

/-- With a normalized direction and a grid of `numarcs` rows, classifying
and counting the new reading cannot fail. -/
theorem addMsg_ok (cfg : Cfg) (m : Msg) (rose : List (List ℤ)) (rose0 : ℤ)
    (hn : 0 < cfg.numarcs) (hlen : rose.length = cfg.numarcs)
    (hd0 : 0 ≤ m.dir) (hd1 : m.dir < 360) :
    ∃ out, addMsg cfg m rose rose0 = some out := by
  cases hc : cellOf cfg m with
  | none =>
    refine ⟨(rose, rose0 + 1), ?_⟩
    unfold addMsg
    rw [hc]
  | some ab =>
    obtain ⟨a0, b0⟩ := ab
    have harc : a0 = arcOfZ cfg m.dir := by
      unfold cellOf at hc
      split at hc
      · exact absurd hc (by simp)
      · have hhp := Option.some_injective _ hc
        exact (congrArg Prod.fst hhp).symm
    subst harc
    obtain ⟨ha0, halt⟩ := arcOfZ_range cfg m.dir hn hd0 hd1
    have htn : (arcOfZ cfg m.dir).toNat < rose.length := by omega
    obtain ⟨row, hrow⟩ : ∃ row, rose[(arcOfZ cfg m.dir).toNat]? = some row :=
      ⟨_, List.getElem?_eq_getElem htn⟩
    refine ⟨(rose.set (arcOfZ cfg m.dir).toNat
      ((extendRow row b0).set b0 ((extendRow row b0).getD b0 0 + 1)), rose0), ?_⟩
    unfold addMsg
    rw [hc]
    show (match (if 0 ≤ arcOfZ cfg m.dir then rose[(arcOfZ cfg m.dir).toNat]? else none) with
      | none => (none : Option (List (List ℤ) × ℤ))
      | some row =>
        let row1 := extendRow row b0
        some (rose.set (arcOfZ cfg m.dir).toNat (row1.set b0 (row1.getD b0 0 + 1)), rose0)) =
      some (rose.set (arcOfZ cfg m.dir).toNat
        ((extendRow row b0).set b0 ((extendRow row b0).getD b0 0 + 1)), rose0)
    rw [if_pos ha0, hrow]

/-! ## Frequency lemmas -/

/-- A fold of `max` stays below a bound that dominates the seed and every
element. -/
theorem foldl_max_le (l : List ℚ) (x c : ℚ) (hx : x ≤ c)
    (hl : ∀ y ∈ l, y ≤ c) : l.foldl max x ≤ c := by
  induction l generalizing x with
  | nil => exact hx
  | cons y t ih =>
    exact ih (max x y) (max_le hx (hl y (List.mem_cons_self _ _)))
      (fun z hz => hl z (List.mem_cons_of_mem _ hz))

/-- When every bucket count equals the count of matching queued readings and
the totals agree, the maximum per-arc frequency cannot exceed 1. -/
theorem maxfreq_le_one (cfg : Cfg) (q : List Msg) (rose : List (List ℤ))
    (rose0 : ℤ)
    (hcell : ∀ a b, cellVal rose a b = cellCount cfg q a b)
    (hz : rose0 = zeroCount cfg q)
    (hsum : roseSum rose + rose0 = q.length)
    (hne : q ≠ []) :
    maxfreqOf rose rose0 q.length ≤ 1 := by
  have hlen : (0 : ℚ) < (q.length : ℚ) := by
    have := List.length_pos.2 hne
    exact_mod_cast this
  have hrow_ent : ∀ row ∈ rose, ∀ x ∈ row, 0 ≤ x := by
    intro row hrow x hx
    obtain ⟨a, halt, harow⟩ := List.mem_iff_getElem.1 hrow
    obtain ⟨b, hblt, hbx⟩ := List.mem_iff_getElem.1 hx
    have : cellVal rose (a : ℤ) b = x := by
      unfold cellVal
      rw [cellGet_eq_bind, if_pos (by positivity), Int.toNat_natCast,
        List.getElem?_eq_getElem halt, Option.some_bind, harow,
        List.getElem?_eq_getElem hblt, hbx]
      rfl
    rw [← this, hcell]
    unfold cellCount
    positivity
  have hrow_sum_nonneg : ∀ row ∈ rose, 0 ≤ row.sum := by
    intro row hrow
    exact List.sum_nonneg (hrow_ent row hrow)
  have hmap_nonneg : ∀ x ∈ rose.map List.sum, (0 : ℤ) ≤ x := by
    intro x hx
    obtain ⟨row, hrow, rfl⟩ := List.mem_map.1 hx
    exact hrow_sum_nonneg row hrow
  have hrose0_nonneg : 0 ≤ rose0 := by
    rw [hz]
    unfold zeroCount
    positivity
  have hroseSum_nonneg : 0 ≤ roseSum rose := List.sum_nonneg hmap_nonneg
  have hrow_le : ∀ row ∈ rose, row.sum ≤ (q.length : ℤ) := by
    intro row hrow
    have h1 : row.sum ≤ roseSum rose :=
      List.single_le_sum hmap_nonneg _ (List.mem_map_of_mem _ hrow)
    omega
  unfold maxfreqOf
  apply foldl_max_le
  · rw [div_le_one hlen]
    have : rose0 ≤ (q.length : ℤ) := by omega
    exact_mod_cast this
  · intro y hy
    obtain ⟨row, hrow, rfl⟩ := List.mem_map.1 hy
    rw [div_le_one hlen]
    exact_mod_cast hrow_le row hrow

/-! ## Count bookkeeping helpers -/

/-- Cell count after a splice. -/
theorem cellCount_insertAt (cfg : Cfg) (q : List Msg) (m : Msg) (n : ℕ)
    (a : ℤ) (b : ℕ) :
    cellCount cfg (q.take n ++ m :: q.drop n) a b =
      cellCount cfg q a b + (if cellOf cfg m = some (a, b) then 1 else 0) := by
  unfold cellCount
  rw [insertAt_countP]
  by_cases hcm : cellOf cfg m = some (a, b)
  · rw [if_pos (by simpa using hcm), if_pos hcm]
    push_cast
    ring
  · rw [if_neg (by simpa using hcm), if_neg hcm]
    push_cast
    ring

/-- Sentinel count after a splice. -/
theorem zeroCount_insertAt (cfg : Cfg) (q : List Msg) (m : Msg) (n : ℕ) :
    zeroCount cfg (q.take n ++ m :: q.drop n) =
      zeroCount cfg q + (if cellOf cfg m = none then 1 else 0) := by
  unfold zeroCount
  rw [insertAt_countP]
  by_cases hcm : cellOf cfg m = none
  · rw [if_pos (by simpa using hcm), if_pos hcm]
    push_cast
    ring
  · rw [if_neg (by simpa using hcm), if_neg hcm]
    push_cast
    ring

/-- Cell count of a dropped queue. -/
theorem cellCount_drop (cfg : Cfg) (q : List Msg) (k : ℕ) (a : ℤ) (b : ℕ) :
    cellCount cfg (q.drop k) a b =
      cellCount cfg q a b - cellCount cfg (q.take k) a b := by
  unfold cellCount
  have hsplit : q.countP (fun x => decide (cellOf cfg x = some (a, b))) =
      (q.take k).countP (fun x => decide (cellOf cfg x = some (a, b))) +
      (q.drop k).countP (fun x => decide (cellOf cfg x = some (a, b))) := by
    rw [← List.countP_append, List.take_append_drop]
  omega

/-- Sentinel count of a dropped queue. -/
theorem zeroCount_drop (cfg : Cfg) (q : List Msg) (k : ℕ) :
    zeroCount cfg (q.drop k) = zeroCount cfg q - zeroCount cfg (q.take k) := by
  unfold zeroCount
  have hsplit : q.countP (fun x => decide (cellOf cfg x = none)) =
      (q.take k).countP (fun x => decide (cellOf cfg x = none)) +
      (q.drop k).countP (fun x => decide (cellOf cfg x = none)) := by
    rw [← List.countP_append, List.take_append_drop]
  omega

/-! ## Invariant preservation -/

/-- The invariant holds in the initial state. -/
theorem inv_init (cfg : Cfg) : Inv cfg (initState cfg) := by
  unfold Inv initState
  refine ⟨List.length_replicate _ _, List.Pairwise.nil, by simp, ?_, ?_, ?_⟩
  · intro a b
    unfold cellVal
    rw [cellGet_eq_bind]
    have hz : cellCount cfg [] a b = 0 := by
      unfold cellCount
      simp
    rw [hz]
    by_cases ha : 0 ≤ a
    · rw [if_pos ha]
      cases hr : (List.replicate cfg.numarcs ([] : List ℤ))[a.toNat]? with
      | none => rfl
      | some row =>
        have : row = [] := by
          have := List.getElem?_mem hr
          simpa using List.eq_of_mem_replicate this
        subst this
        rfl
    · rw [if_neg ha]
      rfl
  · unfold zeroCount
    simp
  · unfold sumCounts roseSum
    simp

/-- Joint effect of the three successful stages of `#update` on the counts:
starting from an invariant state, the final grid counts exactly the
readings of the final queue. -/
theorem stages_counts (cfg : Cfg) (m : Msg) (now : ℚ) (st : RoseState)
    (q1 q2 : List Msg) (rose2 rose3 : List (List ℤ)) (rose02 rose03 : ℤ)
    (hinv : Inv cfg st)
    (hq : queueInsert m st.q = some q1)
    (he : evictLoop cfg now q1 st.rose st.rose0 = Except.ok (q2, rose2, rose02))
    (ha : addMsg cfg m rose2 rose02 = some (rose3, rose03)) :
    rose3.length = cfg.numarcs ∧
    List.Pairwise leWhen q2 ∧
    (∀ x ∈ q2, x ∈ st.q ∨ x = m) ∧
    (∀ a b, cellVal rose3 a b = cellCount cfg q2 a b) ∧
    rose03 = zeroCount cfg q2 ∧
    roseSum rose3 + rose03 = q2.length := by
  obtain ⟨hlen, hsort, hdirs, hcellEq, hzEq, hsumEq⟩ := hinv
  obtain ⟨n, hshape⟩ := queueInsert_shape _ _ _ hq
  obtain ⟨k, hk, hq2, hlen2, hcell2, hz2, hsum2, hne2⟩ :=
    evictLoop_spec cfg now q1 st.rose st.rose0 q2 rose2 rose02 he
  obtain ⟨hlen3, hcell3, hz3, hsum3⟩ := addMsg_spec cfg _ rose2 rose02 rose3 rose03 ha
  have hq1len : q1.length = st.q.length + 1 := by
    rw [hshape]
    exact insertAt_length _ _ _
  have hq1sort := queueInsert_sorted _ _ _ hsort hq
  have hq1cell : ∀ a b, cellCount cfg q1 a b = cellCount cfg st.q a b +
      (if cellOf cfg m = some (a, b) then 1 else 0) := by
    intro a b
    rw [hshape]
    exact cellCount_insertAt cfg st.q _ n a b
  have hq1z : zeroCount cfg q1 = zeroCount cfg st.q +
      (if cellOf cfg m = none then 1 else 0) := by
    rw [hshape]
    exact zeroCount_insertAt cfg st.q _ n
  refine ⟨by rw [hlen3, hlen2, hlen], ?_, ?_, ?_, ?_, ?_⟩
  · rw [hq2]
    exact List.Pairwise.sublist (List.drop_sublist _ _) hq1sort
  · intro x hx
    rw [hq2] at hx
    have hx1 : x ∈ q1 := List.mem_of_mem_drop hx
    rw [hshape] at hx1
    exact insertAt_mem _ _ _ _ hx1
  · intro a b
    rw [hcell3 a b, hcell2 a b, hcellEq a b, hq2, cellCount_drop, hq1cell a b]
    ring
  · rw [hz3, hz2, hzEq, hq2, zeroCount_drop, hq1z]
    ring
  · have hq2len : q2.length = q1.length - k := by
      rw [hq2, List.length_drop]
    have hcast : (q2.length : ℤ) = (q1.length : ℤ) - k := by
      rw [hq2len]
      omega
    rw [hcast, hq1len, hsum3, hsum2]
    unfold sumCounts at hsumEq
    push_cast
    omega

/-- The heart of the aggregator invariant: a normally-returning `#update`
preserves `Inv`. -/
theorem hashUpdate_ok_inv (cfg : Cfg) (now dir : ℚ) (speed : JsNum) (when : ℚ)
    (st st' : RoseState) (hinv : Inv cfg st)
    (h : hashUpdate cfg now dir speed when st = Except.ok st') :
    Inv cfg st' ∧ st'.preloading = st.preloading := by
  unfold hashUpdate at h
  cases hq : queueInsert (normMsg dir speed when) st.q with
  | none =>
    rw [hq] at h
    have h2 : (Except.ok st : Except UpdErr RoseState) = Except.ok st' := h
    rw [← exceptOk_inj h2]
    exact ⟨hinv, rfl⟩
  | some q1 =>
    rw [hq] at h
    have h2 : updStep2 cfg now (normMsg dir speed when) q1 st = Except.ok st' := h
    unfold updStep2 at h2
    cases he : evictLoop cfg now q1 st.rose st.rose0 with
    | error e =>
      rw [he] at h2
      exact absurd h2 (by simp)
    | ok tr =>
      obtain ⟨q2, rose2, rose02⟩ := tr
      rw [he] at h2
      have h3 : updStep3 cfg (normMsg dir speed when) q2 rose2 rose02
          st.preloading = Except.ok st' := h2
      unfold updStep3 at h3
      cases ha : addMsg cfg (normMsg dir speed when) rose2 rose02 with
      | none =>
        rw [ha] at h3
        exact absurd h3 (by simp)
      | some pr =>
        obtain ⟨rose3, rose03⟩ := pr
        rw [ha] at h3
        have h4 : (if 1 < maxfreqOf rose3 rose03 q2.length then
            (Except.error UpdErr.maxfreqExceeded : Except UpdErr RoseState)
          else Except.ok ⟨q2, rose3, rose03, st.preloading⟩) = Except.ok st' := h3
        split at h4
        · exact absurd h4 (by simp)
        · have hst2 := exceptOk_inj h4
          subst hst2
          obtain ⟨hsc1, hsc2, hsc3, hsc4, hsc5, hsc6⟩ :=
            stages_counts cfg _ now st q1 q2 rose2 rose3 rose02 rose03 hinv hq he ha
          refine ⟨⟨hsc1, hsc2, ?_, hsc4, hsc5, hsc6⟩, rfl⟩
          intro x hx
          rcases hsc3 x hx with hmem | rfl
          · exact hinv.2.2.1 x hmem
          · exact ⟨(normMsg_dir_range dir speed when).1,
              (normMsg_dir_range dir speed when).2⟩

/-- Running any sequence of `#update` calls from an invariant state
preserves the invariant whenever every call returns normally. -/
theorem runCalls_inv (cfg : Cfg) :
    ∀ (calls : List Call) (st st' : RoseState), Inv cfg st →
      runCalls cfg calls st = Except.ok st' → Inv cfg st' := by
  intro calls
  induction calls with
  | nil =>
    intro st st' hinv h
    unfold runCalls at h
    rw [← exceptOk_inj h]
    exact hinv
  | cons c rest ih =>
    intro st st' hinv h
    unfold runCalls at h
    cases hc : hashUpdate cfg c.now c.dir c.speed c.when st with
    | error e =>
      rw [hc] at h
      exact absurd h (by simp)
    | ok st1 =>
      rw [hc] at h
      have h2 : runCalls cfg rest st1 = Except.ok st' := h
      exact ih st1 st' (hashUpdate_ok_inv cfg c.now c.dir c.speed c.when
        st st1 hinv hc).1 h2

/-! ## Count-cap behaviour (increasing timestamps) -/

/-- The last element of a queue is a member. -/
theorem mem_of_getLast?_eq (l : List Msg) (x : Msg) (h : l.getLast? = some x) :
    x ∈ l := by
  have hg := List.getLast?_eq_getElem? l
  rw [h] at hg
  have hne : l ≠ [] := by
    intro hl
    subst hl
    simp at hg
  have hlt : l.length - 1 < l.length := by
    have := List.length_pos.2 hne
    omega
  rw [List.getElem?_eq_getElem hlt] at hg
  rw [show x = l[l.length - 1] from Option.some_injective _ hg]
  exact List.getElem_mem _

/-- A reading strictly newer than the whole queue is pushed at the tail. -/
theorem queueInsert_snoc (m : Msg) (q : List Msg)
    (hnew : ∀ x ∈ q, x.when < m.when) : queueInsert m q = some (q ++ [m]) := by
  unfold queueInsert
  cases htl : q.getLast? with
  | none => rfl
  | some tl =>
    have hlt := hnew tl (mem_of_getLast?_eq q tl htl)
    show (if tl.when < m.when then some (q ++ [m]) else qScan m q (q.length - 1)) =
      some (q ++ [m])
    rw [if_pos hlt]

/-- With the age cap off and the count cap not exceeded, the eviction loop
does nothing. -/
theorem evictLoop_noop (cfg : Cfg) (now : ℚ) (q : List Msg)
    (rose : List (List ℤ)) (rose0 : ℤ) (hage : cfg.maxAge = 0)
    (hlen : q.length ≤ cfg.maxCount ∨ cfg.maxCount = 0) :
    evictLoop cfg now q rose rose0 = Except.ok (q, rose, rose0) := by
  cases q with
  | nil =>
    unfold evictLoop
    rw [if_neg (by simp [hage])]
  | cons m rest =>
    unfold evictLoop
    rw [if_neg ?_]
    intro hcond
    rcases hcond with ⟨hc1, hc2⟩ | ⟨hc1, _⟩
    · rcases hlen with hle | h0
      · omega
      · exact hc1 h0
    · exact hc1 hage

/-- One eviction step of the loop. -/
theorem evictLoop_cons (cfg : Cfg) (now : ℚ) (m0 : Msg) (rest : List Msg)
    (rose rose1 : List (List ℤ)) (rose0 rose01 : ℤ)
    (hcond : (cfg.maxCount ≠ 0 ∧ cfg.maxCount < (m0 :: rest).length) ∨
      (cfg.maxAge ≠ 0 ∧ cfg.maxAge < now - m0.when))
    (hdec : evictDec cfg m0 rose rose0 = Except.ok (rose1, rose01)) :
    evictLoop cfg now (m0 :: rest) rose rose0 = evictLoop cfg now rest rose1 rose01 := by
  conv_lhs => unfold evictLoop
  rw [if_pos hcond, hdec]

/-- Evicting a reading that the grid counts cannot fail. -/
theorem evictDec_ok_of_mem (cfg : Cfg) (q : List Msg) (rose : List (List ℤ))
    (rose0 : ℤ) (hcellEq : ∀ a b, cellVal rose a b = cellCount cfg q a b)
    (hd : Msg) (hmem : hd ∈ q) :
    ∃ pr, evictDec cfg hd rose rose0 = Except.ok pr := by
  cases hc : cellOf cfg hd with
  | none =>
    refine ⟨(rose, rose0 - 1), ?_⟩
    unfold evictDec
    rw [hc]
  | some ab =>
    obtain ⟨a, b⟩ := ab
    have hpos : 0 < cellCount cfg q a b := by
      unfold cellCount
      have hp : 0 < q.countP (fun x => decide (cellOf cfg x = some (a, b))) :=
        List.countP_pos_iff.2 ⟨hd, hmem, by simp [hc]⟩
      exact_mod_cast hp
    have hne0 : cellVal rose a b ≠ 0 := by
      rw [hcellEq a b]
      omega
    have hget := cellGet_of_ne_zero rose a b hne0
    refine ⟨(setCell rose a b (cellVal rose a b - 1), rose0), ?_⟩
    unfold evictDec
    rw [hc]
    show (match cellGet rose a b with
      | none => (Except.error UpdErr.missingCell : Except UpdErr _)
      | some c => Except.ok (setCell rose a b (c - 1), rose0)) =
      Except.ok (setCell rose a b (cellVal rose a b - 1), rose0)
    rw [hget]

/-- One `#update` call with a strictly newer timestamp, under the count cap
alone: the call completes, the reading is appended, and (only) when the cap
was already reached the single oldest reading is evicted. -/
theorem hashUpdate_snoc (cfg : Cfg) (c : Call) (st : RoseState)
    (hage : cfg.maxAge = 0) (hcnt : 0 < cfg.maxCount) (hn : 0 < cfg.numarcs)
    (hinv : Inv cfg st) (hlenle : st.q.length ≤ cfg.maxCount)
    (hnew : ∀ x ∈ st.q, x.when < c.when) :
    ∃ st', hashUpdate cfg c.now c.dir c.speed c.when st = Except.ok st' ∧
      st'.q = (st.q ++ [normMsg c.dir c.speed c.when]).drop
        (st.q.length + 1 - cfg.maxCount) ∧
      Inv cfg st' ∧ st'.q.length ≤ cfg.maxCount ∧
      st'.preloading = st.preloading := by
  have hqi : queueInsert (normMsg c.dir c.speed c.when) st.q =
      some (st.q ++ [normMsg c.dir c.speed c.when]) :=
    queueInsert_snoc _ _ (fun x hx => hnew x hx)
  obtain ⟨rose2v, rose02v, hev, hlen2v⟩ : ∃ rose2v rose02v,
      evictLoop cfg c.now (st.q ++ [normMsg c.dir c.speed c.when])
        st.rose st.rose0 =
        Except.ok ((st.q ++ [normMsg c.dir c.speed c.when]).drop
          (st.q.length + 1 - cfg.maxCount), rose2v, rose02v) ∧
      rose2v.length = cfg.numarcs := by
    by_cases hfull : st.q.length < cfg.maxCount
    · refine ⟨st.rose, st.rose0, ?_, hinv.1⟩
      rw [show st.q.length + 1 - cfg.maxCount = 0 from by omega, List.drop_zero]
      apply evictLoop_noop cfg c.now _ st.rose st.rose0 hage
      left
      rw [List.length_append]
      simp
      omega
    · have hqeq : st.q.length = cfg.maxCount := by omega
      obtain ⟨hd, qt, hq0⟩ : ∃ hd qt, st.q = hd :: qt := by
        cases hq0 : st.q with
        | nil =>
          rw [hq0] at hqeq
          simp at hqeq
          omega
        | cons hd qt => exact ⟨hd, qt, rfl⟩
      obtain ⟨pr, hdec⟩ := evictDec_ok_of_mem cfg st.q st.rose st.rose0
        hinv.2.2.2.1 hd (by rw [hq0]; exact List.mem_cons_self _ _)
      obtain ⟨rose1, rose01⟩ := pr
      refine ⟨rose1, rose01, ?_,
        ((evictDec_spec cfg hd st.rose st.rose0 rose1 rose01 hdec).1).trans hinv.1⟩
      rw [hq0] at hqeq
      rw [List.length_cons] at hqeq
      rw [hq0]
      rw [show (hd :: qt).length + 1 - cfg.maxCount = 1 from by
        rw [List.length_cons]
        omega]
      rw [List.cons_append, List.drop_succ_cons, List.drop_zero]
      rw [evictLoop_cons cfg c.now hd (qt ++ [normMsg c.dir c.speed c.when])
        st.rose rose1 st.rose0 rose01 ?_ hdec]
      · apply evictLoop_noop cfg c.now _ _ _ hage
        left
        rw [List.length_append]
        simp
        omega
      · left
        refine ⟨by omega, ?_⟩
        rw [List.length_cons, List.length_append]
        simp
        omega
  obtain ⟨out3, ha⟩ := addMsg_ok cfg (normMsg c.dir c.speed c.when)
    rose2v rose02v hn hlen2v (normMsg_dir_range _ _ _).1
    (normMsg_dir_range _ _ _).2
  obtain ⟨rose3, rose03⟩ := out3
  obtain ⟨hsc1, hsc2, hsc3, hsc4, hsc5, hsc6⟩ :=
    stages_counts cfg (normMsg c.dir c.speed c.when) c.now st _ _
      rose2v rose3 rose02v rose03 hinv hqi hev ha
  have hq2len : ((st.q ++ [normMsg c.dir c.speed c.when]).drop
      (st.q.length + 1 - cfg.maxCount)).length =
      st.q.length + 1 - (st.q.length + 1 - cfg.maxCount) := by
    rw [List.length_drop, List.length_append]
    simp
  have hq2ne : (st.q ++ [normMsg c.dir c.speed c.when]).drop
      (st.q.length + 1 - cfg.maxCount) ≠ [] := by
    apply List.ne_nil_of_length_pos
    rw [hq2len]
    omega
  have hmax := maxfreq_le_one cfg _ rose3 rose03 hsc4 hsc5 hsc6 hq2ne
  have hrun : hashUpdate cfg c.now c.dir c.speed c.when st =
      Except.ok ⟨(st.q ++ [normMsg c.dir c.speed c.when]).drop
        (st.q.length + 1 - cfg.maxCount), rose3, rose03, st.preloading⟩ := by
    unfold hashUpdate
    rw [hqi]
    show updStep2 cfg c.now (normMsg c.dir c.speed c.when)
      (st.q ++ [normMsg c.dir c.speed c.when]) st = _
    unfold updStep2
    rw [hev]
    show updStep3 cfg (normMsg c.dir c.speed c.when)
      ((st.q ++ [normMsg c.dir c.speed c.when]).drop
        (st.q.length + 1 - cfg.maxCount)) rose2v rose02v st.preloading = _
    unfold updStep3
    rw [ha]
    show (if 1 < maxfreqOf rose3 rose03
        ((st.q ++ [normMsg c.dir c.speed c.when]).drop
          (st.q.length + 1 - cfg.maxCount)).length then
        (Except.error UpdErr.maxfreqExceeded : Except UpdErr RoseState)
      else Except.ok ⟨(st.q ++ [normMsg c.dir c.speed c.when]).drop
        (st.q.length + 1 - cfg.maxCount), rose3, rose03, st.preloading⟩) = _
    rw [if_neg (not_lt.2 hmax)]
  refine ⟨_, hrun, rfl, ?_, ?_, rfl⟩
  · exact (hashUpdate_ok_inv cfg c.now c.dir c.speed c.when st _ hinv hrun).1
  · show ((st.q ++ [normMsg c.dir c.speed c.when]).drop
      (st.q.length + 1 - cfg.maxCount)).length ≤ cfg.maxCount
    rw [hq2len]
    omega

/-- Running strictly-increasing-timestamp calls under the count cap alone:
every call completes and the queue is the suffix of the appended normalized
readings that fits under the cap. -/
theorem runCalls_capped (cfg : Cfg) (hage : cfg.maxAge = 0)
    (hcnt : 0 < cfg.maxCount) (hn : 0 < cfg.numarcs) :
    ∀ (calls : List Call) (st : RoseState), Inv cfg st →
      st.q.length ≤ cfg.maxCount →
      List.Pairwise (fun c1 c2 => c1.when < c2.when) calls →
      (∀ x ∈ st.q, ∀ c ∈ calls, x.when < c.when) →
      ∃ st', runCalls cfg calls st = Except.ok st' ∧
        st'.q = (st.q ++ calls.map
          (fun c => normMsg c.dir c.speed c.when)).drop
          (st.q.length + calls.length - cfg.maxCount) ∧
        Inv cfg st' ∧ st'.q.length ≤ cfg.maxCount ∧
        st'.preloading = st.preloading := by
  intro calls
  induction calls with
  | nil =>
    intro st hinv hlen _ _
    refine ⟨st, rfl, ?_, hinv, hlen, rfl⟩
    rw [List.map_nil, List.append_nil,
      show st.q.length + ([] : List Call).length - cfg.maxCount = 0 from by
        simp
        omega,
      List.drop_zero]
  | cons c rest ih =>
    intro st hinv hlen hpair hbefore
    obtain ⟨st1, hstep, hq1, hinv1, hlen1, hpl1⟩ :=
      hashUpdate_snoc cfg c st hage hcnt hn hinv hlen
        (fun x hx => hbefore x hx c (List.mem_cons_self _ _))
    have hnew1 : ∀ x ∈ st1.q, ∀ c2 ∈ rest, x.when < c2.when := by
      intro x hx c2 hc2
      rw [hq1] at hx
      have hx2 := List.mem_of_mem_drop hx
      rcases List.mem_append.1 hx2 with hxq | hxm
      · exact hbefore x hxq c2 (List.mem_cons_of_mem _ hc2)
      · rcases List.mem_singleton.1 hxm with rfl
        exact (List.pairwise_cons.1 hpair).1 c2 hc2
    obtain ⟨st', hrun, hq', hinv', hlen', hpl'⟩ :=
      ih st1 hinv1 hlen1 (List.pairwise_cons.1 hpair).2 hnew1
    refine ⟨st', ?_, ?_, hinv', hlen', hpl'.trans hpl1⟩
    · unfold runCalls
      rw [hstep]
      exact hrun
    · rw [hq', hq1]
      have hd1le : st.q.length + 1 - cfg.maxCount ≤
          (st.q ++ [normMsg c.dir c.speed c.when]).length := by
        rw [List.length_append]
        simp
      rw [← List.drop_append_of_le_length hd1le, List.drop_drop,
        List.map_cons, List.length_cons, List.append_assoc,
        List.singleton_append]
      have hdl : (List.drop (st.q.length + 1 - cfg.maxCount)
          (st.q ++ [normMsg c.dir c.speed c.when])).length =
          st.q.length + 1 - (st.q.length + 1 - cfg.maxCount) := by
        rw [List.length_drop, List.length_append]
        simp
      rw [show st.q.length + 1 - cfg.maxCount +
          ((List.drop (st.q.length + 1 - cfg.maxCount)
            (st.q ++ [normMsg c.dir c.speed c.when])).length + rest.length -
            cfg.maxCount) =
          st.q.length + (rest.length + 1) - cfg.maxCount from by omega]

/-! ## Band classification lemmas -/

/-- The server's band loop and the client's band loop agree for every
(real) speed and every bands array. -/
theorem serverBandOf_eq_clientBandOf (bands : List ℚ) (s : ℚ) :
    serverBandOf bands s = clientBandOf bands (some s) := by
  induction bands with
  | nil => rfl
  | cons b rest ih =>
    unfold serverBandOf clientBandOf
    rw [List.findIdx_cons]
    by_cases hb : b ≤ s
    · rw [if_pos hb]
      have hp : jsLt (some s) b = false := by
        unfold jsLt
        exact decide_eq_false (not_lt.2 hb)
      rw [hp]
      unfold clientBandOf at ih
      rw [ih]
      rfl
    · rw [if_neg hb]
      have hp : jsLt (some s) b = true := by
        unfold jsLt
        exact decide_eq_true (not_le.1 hb)
      rw [hp]
      rfl

/-- Every band strictly below the chosen one fails the strict comparison:
its boundary is at most the speed. -/
theorem clientBandOf_not_lt (bands : List ℚ) (speed : JsNum) :
    ∀ j, j < clientBandOf bands speed → ∀ bj, bands[j]? = some bj →
      jsLt speed bj = false := by
  induction bands with
  | nil =>
    intro j hjlt bj hbj
    simp at hbj
  | cons b rest ih =>
    intro j hjlt bj hbj
    unfold clientBandOf at hjlt
    rw [List.findIdx_cons] at hjlt
    cases hp : jsLt speed b with
    | true =>
      rw [hp] at hjlt
      simp at hjlt
    | false =>
      rw [hp] at hjlt
      simp at hjlt
      cases j with
      | zero =>
        have hbj2 : bj = b := by simpa using hbj.symm
        rw [hbj2]
        exact hp
      | succ j2 =>
        exact ih j2 (by unfold clientBandOf; omega) bj (by simpa using hbj)

/-- The chosen band, when it is a real band, is the first whose boundary is
strictly greater than the speed. -/
theorem clientBandOf_lt (bands : List ℚ) (speed : JsNum) :
    ∀ bj, bands[clientBandOf bands speed]? = some bj → jsLt speed bj = true := by
  induction bands with
  | nil =>
    intro bj hbj
    simp [clientBandOf] at hbj
  | cons b rest ih =>
    intro bj hbj
    unfold clientBandOf at hbj
    rw [List.findIdx_cons] at hbj
    cases hp : jsLt speed b with
    | true =>
      rw [hp] at hbj
      have hbj2 : bj = b := by simpa using hbj.symm
      rw [hbj2]
      exact hp
    | false =>
      rw [hp] at hbj
      simp only [cond_false] at hbj
      exact ih bj (by simpa using hbj)

/-- The chosen band index never exceeds the array length. -/
theorem clientBandOf_le_length (bands : List ℚ) (speed : JsNum) :
    clientBandOf bands speed ≤ bands.length :=
  List.findIdx_le_length _

/-- A speed exactly on a strictly-increasing band boundary is classified
into the band above the boundary. -/
theorem clientBandOf_boundary (bands : List ℚ) (s : ℚ)
    (hmono : List.Pairwise (· < ·) bands) :
    ∀ j, bands[j]? = some s → clientBandOf bands (some s) = j + 1 := by
  induction bands with
  | nil =>
    intro j hj
    simp at hj
  | cons b rest ih =>
    intro j hj
    unfold clientBandOf
    rw [List.findIdx_cons]
    cases j with
    | zero =>
      have hbs : b = s := by simpa using hj
      have hp : jsLt (some s) b = false := by
        unfold jsLt
        exact decide_eq_false (by rw [hbs]; exact lt_irrefl s)
      rw [hp]
      cases rest with
      | nil => rfl
      | cons b2 rest2 =>
        have hbb2 : b < b2 := (List.pairwise_cons.1 hmono).1 b2 (List.mem_cons_self _ _)
        have hp2 : jsLt (some s) b2 = true := by
          unfold jsLt
          exact decide_eq_true (by rw [← hbs]; exact hbb2)
        rw [List.findIdx_cons, hp2]
        rfl
    | succ j2 =>
      have hj2 : rest[j2]? = some s := by simpa using hj
      have hmem : s ∈ rest := List.getElem?_mem hj2
      have hblt : b < s := (List.pairwise_cons.1 hmono).1 _ hmem
      have hp : jsLt (some s) b = false := by
        unfold jsLt
        exact decide_eq_false (not_lt.2 (le_of_lt hblt))
      rw [hp]
      have := ih (List.pairwise_cons.1 hmono).2 j2 hj2
      unfold clientBandOf at this
      simp [this]

/-! ## Claim theorems -/

/-- C1: for every sequence of `#update` (insert) calls run from the initial
state, after each call that completes normally the bucket counts — every
`(arc, band)` cell of the rose grid plus the zero-speed sentinel — sum to
the window-queue length, and each queued reading is counted by exactly the
one bucket it classifies into.  Quantifying over all call lists covers
every prefix of a longer sequence, i.e. the invariant holds after each
call. -/
theorem c1_bucket_counts_match_queue (cfg : Cfg) (calls : List Call)
    (st' : RoseState)
    (h : runCalls cfg calls (initState cfg) = Except.ok st') :
    sumCounts st' = st'.q.length ∧
    (∀ a b, cellVal st'.rose a b = cellCount cfg st'.q a b) ∧
    st'.rose0 = zeroCount cfg st'.q := by
  have hinv := runCalls_inv cfg calls (initState cfg) st' (inv_init cfg) h
  exact ⟨hinv.2.2.2.2.2, hinv.2.2.2.1, hinv.2.2.2.2.1⟩

/-- Witness for C1 at a concrete two-call run. -/
theorem c1_witness :
    runCalls cfgC2 callsC1 (initState cfgC2) = Except.ok
      ⟨[⟨45, some 5, 1000⟩, ⟨0, some 0, 2000⟩],
        (List.replicate 18 ([] : List ℤ)).set 2 [0, 1], 1, false⟩ ∧
    sumCounts ⟨[⟨45, some 5, 1000⟩, ⟨0, some 0, 2000⟩],
      (List.replicate 18 ([] : List ℤ)).set 2 [0, 1], 1, false⟩ =
      ([⟨45, some 5, 1000⟩, ⟨0, some 0, 2000⟩] : List Msg).length := by
  have hrun : runCalls cfgC2 callsC1 (initState cfgC2) = Except.ok
      ⟨[⟨45, some 5, 1000⟩, ⟨0, some 0, 2000⟩],
        (List.replicate 18 ([] : List ℤ)).set 2 [0, 1], 1, false⟩ := by
    norm_num [runCalls, hashUpdate, updStep2, updStep3, queueInsert, qScan,
      evictLoop, evictDec, addMsg, cellOf, cellGet, cellVal, setCell, extendRow,
      maxfreqOf, roseSum, normMsg, jsMax0, jsEq, jsLt, normDir, jsFmod, jsTrunc,
      arcOfZ, jsRound, arcWidth, clientBandOf, isDup, initState, List.findIdx,
      List.findIdx.go, Int.toNat, List.replicate, List.set, List.getLast?,
      cfgC2, callsC1]
  exact ⟨hrun, (c1_bucket_counts_match_queue cfgC2 callsC1 _ hrun).1⟩

/-- C4: for every positive (non-zero) speed and every bands array, the
aggregator's insert-path band loop and the server encoder's band loop agree
and assign the index of the first boundary strictly greater than the speed:
every boundary below the chosen index is at most the speed, the chosen
boundary (when it exists) strictly exceeds it, and a speed exactly equal to
a strictly-increasing boundary classifies into the band above that
boundary on both paths. -/
theorem c4_boundary_classifies_above (bands : List ℚ) (s : ℚ) (hpos : 0 < s) :
    serverBandOf bands s = clientBandOf bands (some s) ∧
    (∀ j, j < clientBandOf bands (some s) → ∀ bj, bands[j]? = some bj → bj ≤ s) ∧
    (∀ bj, bands[clientBandOf bands (some s)]? = some bj → s < bj) ∧
    (List.Pairwise (· < ·) bands → ∀ j, bands[j]? = some s →
      clientBandOf bands (some s) = j + 1 ∧ serverBandOf bands s = j + 1) := by
  refine ⟨serverBandOf_eq_clientBandOf bands s, ?_, ?_, ?_⟩
  · intro j hj bj hbj
    have hf := clientBandOf_not_lt bands (some s) j hj bj hbj
    unfold jsLt at hf
    exact not_lt.1 (by simpa using hf)
  · intro bj hbj
    have hf := clientBandOf_lt bands (some s) bj hbj
    unfold jsLt at hf
    simpa using hf
  · intro hmono j hj
    have h1 := clientBandOf_boundary bands s hmono j hj
    exact ⟨h1, by rw [serverBandOf_eq_clientBandOf]; exact h1⟩

/-- Witness for C4: speed 5 sits exactly on the boundary of bands
`[5, 200]` and lands in band 1 on both paths. -/
theorem c4_witness :
    (0 : ℚ) < 5 ∧ List.Pairwise (· < ·) ([5, 200] : List ℚ) ∧
    ([5, 200] : List ℚ)[0]? = some 5 ∧
    clientBandOf [5, 200] (some 5) = 1 ∧ serverBandOf [5, 200] 5 = 1 := by
  have hmono : List.Pairwise (· < ·) ([5, 200] : List ℚ) := by
    norm_num
  have hj : ([5, 200] : List ℚ)[0]? = some 5 := rfl
  have happ := (c4_boundary_classifies_above [5, 200] 5 (by norm_num)).2.2.2
    hmono 0 hj
  exact ⟨by norm_num, hmono, hj, happ.1, happ.2⟩

/-- C5: with `max_data_count = N > 0` and `max_data_age` disabled, after
inserting more than `N` readings with strictly increasing timestamps from
the initial state, every call completes, exactly the `N` most recent
(normalized) readings remain in the queue, and every bucket count reflects
only those readings. -/
theorem c5_count_cap_keeps_most_recent (cfg : Cfg) (calls : List Call)
    (hage : cfg.maxAge = 0) (hcnt : 0 < cfg.maxCount) (hn : 0 < cfg.numarcs)
    (hover : cfg.maxCount < calls.length)
    (hpair : List.Pairwise (fun c1 c2 => c1.when < c2.when) calls) :
    ∃ st', runCalls cfg calls (initState cfg) = Except.ok st' ∧
      st'.q = (calls.map (fun c => normMsg c.dir c.speed c.when)).drop
        (calls.length - cfg.maxCount) ∧
      st'.q.length = cfg.maxCount ∧
      (∀ a b, cellVal st'.rose a b = cellCount cfg st'.q a b) ∧
      st'.rose0 = zeroCount cfg st'.q ∧
      sumCounts st' = st'.q.length := by
  obtain ⟨st', hrun, hq, hinv, hlenle, _⟩ :=
    runCalls_capped cfg hage hcnt hn calls (initState cfg) (inv_init cfg)
      (by simp [initState]) hpair (by simp [initState])
  have hq2 : st'.q = (calls.map (fun c => normMsg c.dir c.speed c.when)).drop
      (calls.length - cfg.maxCount) := by
    rw [hq]
    simp [initState]
  refine ⟨st', hrun, hq2, ?_, hinv.2.2.2.1, hinv.2.2.2.2.1, hinv.2.2.2.2.2⟩
  rw [hq2, List.length_drop, List.length_map]
  omega

/-- Witness for C5: three increasing-timestamp readings against a cap of
two. -/
theorem c5_witness :
    cfgC5.maxAge = 0 ∧ 0 < cfgC5.maxCount ∧ 0 < cfgC5.numarcs ∧
    cfgC5.maxCount < callsC5.length ∧
    List.Pairwise (fun c1 c2 => c1.when < c2.when) callsC5 ∧
    (∃ st', runCalls cfgC5 callsC5 (initState cfgC5) = Except.ok st' ∧
      st'.q = (callsC5.map (fun c => normMsg c.dir c.speed c.when)).drop
        (callsC5.length - cfgC5.maxCount) ∧
      st'.q.length = cfgC5.maxCount ∧
      (∀ a b, cellVal st'.rose a b = cellCount cfgC5 st'.q a b) ∧
      st'.rose0 = zeroCount cfgC5 st'.q ∧
      sumCounts st' = st'.q.length) := by
  refine ⟨rfl, by norm_num [cfgC5], by norm_num [cfgC5], by norm_num [cfgC5, callsC5], ?_, ?_⟩
  · norm_num [callsC5]
  · exact c5_count_cap_keeps_most_recent cfgC5 callsC5 rfl
      (by norm_num [cfgC5]) (by norm_num [cfgC5])
      (by norm_num [cfgC5, callsC5]) (by norm_num [callsC5])

/-- C7: inserting a reading whose (timestamp, speed, direction) triple
duplicates a reading already in the (sorted) window queue is a no-op:
`#update` returns the state unchanged. -/
theorem c7_duplicate_insert_is_noop (cfg : Cfg) (now dir : ℚ) (speed : JsNum)
    (when : ℚ) (st : RoseState) (r : Msg)
    (hsort : List.Pairwise leWhen st.q) (hr : r ∈ st.q)
    (hdup : isDup r (normMsg dir speed when) = true) :
    hashUpdate cfg now dir speed when st = Except.ok st := by
  unfold hashUpdate
  rw [queueInsert_dup (normMsg dir speed when) st.q hsort r hr hdup]

/-- Witness for C7: re-inserting `(45, 5, 1000)` after it is queued leaves
the state intact. -/
theorem c7_witness :
    List.Pairwise leWhen ([⟨45, some 5, 1000⟩] : List Msg) ∧
    (⟨45, some 5, 1000⟩ : Msg) ∈ ([⟨45, some 5, 1000⟩] : List Msg) ∧
    isDup ⟨45, some 5, 1000⟩ (normMsg 45 (some 5) 1000) = true ∧
    hashUpdate cfgC2 0 45 (some 5) 1000
      ⟨[⟨45, some 5, 1000⟩], (List.replicate 18 ([] : List ℤ)).set 2 [0, 1],
        0, false⟩ =
      Except.ok ⟨[⟨45, some 5, 1000⟩],
        (List.replicate 18 ([] : List ℤ)).set 2 [0, 1], 0, false⟩ := by
  have hdup : isDup ⟨45, some 5, 1000⟩ (normMsg 45 (some 5) 1000) = true := by
    norm_num [isDup, normMsg, jsMax0, jsEq, normDir, jsFmod, jsTrunc]
  refine ⟨List.pairwise_singleton _ _, List.mem_singleton.2 rfl, hdup, ?_⟩
  exact c7_duplicate_insert_is_noop cfgC2 0 45 (some 5) 1000 _ _
    (List.pairwise_singleton _ _) (List.mem_singleton.2 rfl) hdup

/-- C8: while a preload decode is in progress (`#preloading` set), a public
`update` call returns immediately with the state — queue, bucket counts and
flag — unchanged; being dropped from a pure transition, the reading is
never applied later either. -/
theorem c8_update_dropped_while_preloading (cfg : Cfg) (now dir : ℚ)
    (speed : JsNum) (w : Option ℚ) (st : RoseState)
    (hpl : st.preloading = true) :
    update cfg now dir speed w st = Except.ok st := by
  unfold update
  rw [if_pos hpl]

/-- Witness for C8 at a concrete preloading state. -/
theorem c8_witness :
    (⟨[], List.replicate 18 ([] : List ℤ), 0, true⟩ : RoseState).preloading
      = true ∧
    update cfgC2 7 45 (some 5) (some 1000)
      ⟨[], List.replicate 18 ([] : List ℤ), 0, true⟩ =
      Except.ok ⟨[], List.replicate 18 ([] : List ℤ), 0, true⟩ :=
  ⟨rfl, c8_update_dropped_while_preloading cfgC2 7 45 (some 5) (some 1000)
    _ rfl⟩

/-- C9: a negative-speed insert is normalized to speed exactly 0 (clamped,
not mirrored) with direction 0, classifies into the zero-speed sentinel
regardless of the supplied direction, and `#update` behaves exactly as an
insert of the zero reading. -/
theorem c9_negative_speed_clamped_to_sentinel (cfg : Cfg) (d s w : ℚ)
    (hneg : s < 0) :
    normMsg d (some s) w = ⟨0, some 0, w⟩ ∧
    cellOf cfg (normMsg d (some s) w) = none ∧
    (∀ now st, hashUpdate cfg now d (some s) w st =
      hashUpdate cfg now 0 (some 0) w st) := by
  have hjs : jsEq (some (0 : ℚ)) (some 0) = true := by
    unfold jsEq
    exact decide_eq_true rfl
  have hmax : jsMax0 (some s) = some 0 := by
    show some (0 ⊔ s) = some 0
    rw [max_eq_left (le_of_lt hneg)]
  have hnm : normMsg d (some s) w = ⟨0, some 0, w⟩ := by
    unfold normMsg
    rw [hmax, hjs]
    rfl
  have hmax0 : jsMax0 (some (0 : ℚ)) = some 0 := by
    show some (0 ⊔ (0 : ℚ)) = some 0
    rw [max_self]
  have hnm0 : normMsg 0 (some 0) w = ⟨0, some 0, w⟩ := by
    unfold normMsg
    rw [hmax0, hjs]
    rfl
  refine ⟨hnm, ?_, ?_⟩
  · unfold cellOf
    rw [hnm]
    show (if jsEq (some 0) (some 0) = true then none else _) = none
    rw [hjs]
    simp
  · intro now st
    unfold hashUpdate
    rw [hnm, hnm0]

/-- Witness for C9 at speed `-3`. -/
theorem c9_witness :
    (-3 : ℚ) < 0 ∧ normMsg 123 (some (-3)) 7 = ⟨0, some 0, 7⟩ ∧
    cellOf cfgC2 (normMsg 123 (some (-3)) 7) = none := by
  have h := c9_negative_speed_clamped_to_sentinel cfgC2 123 (-3) 7 (by norm_num)
  exact ⟨by norm_num, h.1, h.2.1⟩

/-- Counterexample for C10 as frozen: the timestamp `-7` is not strictly
positive, yet the public `update` path interprets it as seconds and scales
it by 1000. -/
theorem c10_counterexample_negative_scaled :
    resolveWhen 99 (some (-7)) = -7000 ∧ ¬ (0 < (-7 : ℚ)) ∧
    (-7000 : ℚ) ≠ -7 := by
  refine ⟨?_, by norm_num, by norm_num⟩
  show (if (-7 : ℚ) = 0 then (99 : ℚ)
    else if (-7 : ℚ) < 1000000000000 then -7 * 1000 else -7) = -7000
  rw [if_neg (by norm_num), if_pos (by norm_num)]
  norm_num

/-- C10 (amended): an absent or zero (falsy) timestamp is replaced by the
current wall-clock time — 0 is "now", never the epoch — and every nonzero
timestamp below `10^12`, negative ones included, is interpreted as seconds
and scaled by 1000, while values at or above `10^12` pass through
unchanged. -/
theorem c10_falsy_now_and_nonzero_scaling (now w : ℚ) :
    resolveWhen now none = now ∧
    resolveWhen now (some 0) = now ∧
    (w ≠ 0 → w < 1000000000000 → resolveWhen now (some w) = w * 1000) ∧
    (w ≠ 0 → ¬ w < 1000000000000 → resolveWhen now (some w) = w) := by
  refine ⟨rfl, ?_, ?_, ?_⟩
  · show (if (0 : ℚ) = 0 then now
      else if (0 : ℚ) < 1000000000000 then 0 * 1000 else 0) = now
    rw [if_pos rfl]
  · intro h1 h2
    show (if w = 0 then now else if w < 1000000000000 then w * 1000 else w) =
      w * 1000
    rw [if_neg h1, if_pos h2]
  · intro h1 h2
    show (if w = 0 then now else if w < 1000000000000 then w * 1000 else w) = w
    rw [if_neg h1, if_neg h2]

/-- Witness for C10 (amended) at `now = 1`, `w = -7`. -/
theorem c10_witness :
    ((-7 : ℚ) ≠ 0) ∧ ((-7 : ℚ) < 1000000000000) ∧
    resolveWhen 1 (some (-7)) = -7 * 1000 :=
  ⟨by norm_num, by norm_num,
    (c10_falsy_now_and_nonzero_scaling 1 (-7)).2.2.1 (by norm_num) (by norm_num)⟩

/-- C2 (code bug): the delta codec does not round-trip bucket assignments.
Encoding the single reading `(dir 0, speed 1)` with `numarcs = 18`,
`bands = [5, 200]` yields the record `0` (the encoder's own bucket
`(arc 0, band 0)`), but the decoder reconstructs direction
`(0 + 0.5) * 20 = 10`, which `Math.round(10/20) = 1` re-classifies into arc
1 — so the decoded reading lands in bucket `(1, 0)` while direct insertion
of the original lands in `(0, 0)`. -/
theorem c2_roundtrip_mismatch :
    encToDeltaMsg (encodeDelta 18 [5, 200] none histC2) =
      some ⟨2000, 1000, [DeltaRec.num 0]⟩ ∧
    decodedBuckets cfgC2 ⟨2000, 1000, [DeltaRec.num 0]⟩ = [some (1, 0)] ∧
    directBuckets cfgC2 histC2 = [some (0, 0)] ∧
    decodedBuckets cfgC2 ⟨2000, 1000, [DeltaRec.num 0]⟩ ≠
      directBuckets cfgC2 histC2 := by
  have h1 : encToDeltaMsg (encodeDelta 18 [5, 200] none histC2) =
      some ⟨2000, 1000, [DeltaRec.num 0]⟩ := by
    norm_num [encToDeltaMsg, encodeDelta, encodeStep, histC2, falsyQ, jsSubQ,
      jsAddQ, jsSubZ, jsNeZ, jsRound, serverBandOf, encRecToDelta, List.mapM,
      List.mapM.loop]
  have h2 : decodedBuckets cfgC2 ⟨2000, 1000, [DeltaRec.num 0]⟩ =
      [some (1, 0)] := by
    norm_num [decodedBuckets, cfgC2, decodeDelta, decodeDeltaGo, jsBandSpeed,
      arcWidth, cellOf, normMsg, jsMax0, jsEq, normDir, jsFmod, jsTrunc, arcOfZ,
      jsRound, clientBandOf, jsLt, List.findIdx, List.findIdx.go, Int.toNat]
  have h3 : directBuckets cfgC2 histC2 = [some (0, 0)] := by
    norm_num [directBuckets, histC2, cfgC2, cellOf, normMsg, jsMax0, jsEq,
      normDir, jsFmod, jsTrunc, arcOfZ, jsRound, arcWidth, clientBandOf, jsLt,
      List.findIdx, List.findIdx.go, Int.toNat]
  refine ⟨h1, h2, h3, ?_⟩
  rw [h2, h3]
  simp

/-- C3 (code bug): a delta record whose cursor denotes band
`floor(18/18) = 1`, beyond the single-band configuration, is not rejected:
the decode completes without error, producing a reading whose speed is NaN
(`bands[1]` is undefined), and the full preload inserts that reading — it
is counted in the out-of-range cell `(arc 1, band 1)` of the grid. -/
theorem c3_out_of_range_band_not_rejected :
    cfgC3.bands.length = 1 ∧
    (⌊((18 : ℤ) : ℚ) / ((cfgC3.numarcs : ℕ) : ℚ)⌋ : ℤ) = 1 ∧
    decodeDelta cfgC3 msgC3 = [⟨10, none, 0⟩] ∧
    preloadDelta cfgC3 0 msgC3 (initState cfgC3) = Except.ok
      ⟨[⟨10, none, 0⟩], (List.replicate 18 ([] : List ℤ)).set 1 [0, 1],
        0, false⟩ := by
  refine ⟨rfl, by norm_num [cfgC3], ?_, ?_⟩
  · norm_num [decodeDelta, decodeDeltaGo, jsBandSpeed, arcWidth, cfgC3, msgC3]
  · norm_num [preloadDelta, applyTriples, decodeDelta, decodeDeltaGo,
      jsBandSpeed, arcWidth, cfgC3, msgC3, hashUpdate, updStep2, updStep3,
      queueInsert, qScan, evictLoop, evictDec, addMsg, cellOf, cellGet, cellVal,
      setCell, extendRow, maxfreqOf, roseSum, normMsg, jsMax0, jsEq, jsLt,
      normDir, jsFmod, jsTrunc, arcOfZ, jsRound, clientBandOf, isDup, initState,
      List.findIdx, List.findIdx.go, Int.toNat, List.replicate, List.set,
      List.getLast?, show ([0, 0] : List ℤ)[1] = 0 from rfl]

/-- C6: once the queue insertion, eviction and bucket-increment stages of
`#update` have run, the call throws exactly when the recomputed maximum
per-arc frequency exceeds 1, and returns the completed state whenever it is
at most 1. -/
theorem c6_maxfreq_guard (cfg : Cfg) (now dir : ℚ) (speed : JsNum) (when : ℚ)
    (st : RoseState) (q1 q2 : List Msg) (rose2 rose3 : List (List ℤ))
    (rose02 rose03 : ℤ)
    (hq : queueInsert (normMsg dir speed when) st.q = some q1)
    (he : evictLoop cfg now q1 st.rose st.rose0 = Except.ok (q2, rose2, rose02))
    (ha : addMsg cfg (normMsg dir speed when) rose2 rose02 = some (rose3, rose03)) :
    (1 < maxfreqOf rose3 rose03 q2.length →
      hashUpdate cfg now dir speed when st = Except.error UpdErr.maxfreqExceeded) ∧
    (¬ 1 < maxfreqOf rose3 rose03 q2.length →
      hashUpdate cfg now dir speed when st =
        Except.ok ⟨q2, rose3, rose03, st.preloading⟩) := by
  have hbase : ∀ r : Except UpdErr RoseState,
      ((if 1 < maxfreqOf rose3 rose03 q2.length then
          (Except.error UpdErr.maxfreqExceeded : Except UpdErr RoseState)
        else Except.ok ⟨q2, rose3, rose03, st.preloading⟩) = r) →
      hashUpdate cfg now dir speed when st = r := by
    intro r hr
    unfold hashUpdate
    rw [hq]
    show updStep2 cfg now (normMsg dir speed when) q1 st = r
    unfold updStep2
    rw [he]
    show updStep3 cfg (normMsg dir speed when) q2 rose2 rose02 st.preloading = r
    unfold updStep3
    rw [ha]
    exact hr
  constructor
  · intro hgt
    exact hbase _ (by rw [if_pos hgt])
  · intro hle
    exact hbase _ (by rw [if_neg hle])

/-- Witness for C6, both directions: a corrupted state whose sentinel count
exceeds the queue length makes the recomputed maximum frequency 3 and the
call throws; a fresh insert has maximum frequency 1 and completes. -/
theorem c6_witness :
    (queueInsert (normMsg 0 (some 0) 600) stC6.q =
      some [⟨0, some 0, 500⟩, ⟨0, some 0, 600⟩] ∧
    evictLoop cfgC6 0 [⟨0, some 0, 500⟩, ⟨0, some 0, 600⟩] stC6.rose stC6.rose0 =
      Except.ok ([⟨0, some 0, 500⟩, ⟨0, some 0, 600⟩], [[]], 5) ∧
    addMsg cfgC6 (normMsg 0 (some 0) 600) [[]] 5 = some ([[]], 6) ∧
    1 < maxfreqOf [[]] 6 ([⟨0, some 0, 500⟩, ⟨0, some 0, 600⟩] : List Msg).length ∧
    hashUpdate cfgC6 0 0 (some 0) 600 stC6 =
      Except.error UpdErr.maxfreqExceeded) ∧
    (queueInsert (normMsg 45 (some 5) 1000) (initState cfgC2).q =
      some [⟨45, some 5, 1000⟩] ∧
    evictLoop cfgC2 0 [⟨45, some 5, 1000⟩] (initState cfgC2).rose
      (initState cfgC2).rose0 =
      Except.ok ([⟨45, some 5, 1000⟩], List.replicate 18 ([] : List ℤ), 0) ∧
    addMsg cfgC2 (normMsg 45 (some 5) 1000) (List.replicate 18 ([] : List ℤ)) 0 =
      some ((List.replicate 18 ([] : List ℤ)).set 2 [0, 1], 0) ∧
    ¬ 1 < maxfreqOf ((List.replicate 18 ([] : List ℤ)).set 2 [0, 1]) 0
      ([⟨45, some 5, 1000⟩] : List Msg).length ∧
    hashUpdate cfgC2 0 45 (some 5) 1000 (initState cfgC2) =
      Except.ok ⟨[⟨45, some 5, 1000⟩],
        (List.replicate 18 ([] : List ℤ)).set 2 [0, 1], 0, false⟩) := by
  have hnm0 : normMsg 0 (some 0) 600 = ⟨0, some 0, 600⟩ := by
    norm_num [normMsg, jsMax0, jsEq]
  have hq6 : queueInsert (normMsg 0 (some 0) 600) stC6.q =
      some [⟨0, some 0, 500⟩, ⟨0, some 0, 600⟩] := by
    norm_num [stC6, queueInsert, qScan, List.getLast?, isDup, hnm0]
  have he6 : evictLoop cfgC6 0 [⟨0, some 0, 500⟩, ⟨0, some 0, 600⟩]
      stC6.rose stC6.rose0 =
      Except.ok ([⟨0, some 0, 500⟩, ⟨0, some 0, 600⟩], [[]], 5) := by
    norm_num [stC6, cfgC6, evictLoop]
  have ha6 : addMsg cfgC6 (normMsg 0 (some 0) 600) [[]] 5 = some ([[]], 6) := by
    norm_num [cfgC6, addMsg, cellOf, hnm0, jsEq]
  have hm6 : 1 < maxfreqOf [[]] 6
      ([⟨0, some 0, 500⟩, ⟨0, some 0, 600⟩] : List Msg).length := by
    norm_num [maxfreqOf]
  have hrun6 := (c6_maxfreq_guard cfgC6 0 0 (some 0) 600 stC6 _ _ _ _ _ _
    hq6 he6 ha6).1 hm6
  have hnm2 : normMsg 45 (some 5) 1000 = ⟨45, some 5, 1000⟩ := by
    norm_num [normMsg, jsMax0, jsEq, normDir, jsFmod, jsTrunc]
  have hq2 : queueInsert (normMsg 45 (some 5) 1000) (initState cfgC2).q =
      some [⟨45, some 5, 1000⟩] := by
    norm_num [initState, queueInsert, List.getLast?, hnm2]
  have he2 : evictLoop cfgC2 0 [⟨45, some 5, 1000⟩] (initState cfgC2).rose
      (initState cfgC2).rose0 =
      Except.ok ([⟨45, some 5, 1000⟩], List.replicate 18 ([] : List ℤ), 0) := by
    norm_num [initState, cfgC2, evictLoop]
  have ha2 : addMsg cfgC2 (normMsg 45 (some 5) 1000)
      (List.replicate 18 ([] : List ℤ)) 0 =
      some ((List.replicate 18 ([] : List ℤ)).set 2 [0, 1], 0) := by
    norm_num [cfgC2, addMsg, cellOf, hnm2, jsEq, arcOfZ, jsRound, arcWidth,
      clientBandOf, jsLt, List.findIdx, List.findIdx.go, Int.toNat,
      List.replicate, extendRow, List.set]
  have hm2 : ¬ 1 < maxfreqOf ((List.replicate 18 ([] : List ℤ)).set 2 [0, 1]) 0
      ([⟨45, some 5, 1000⟩] : List Msg).length := by
    norm_num [maxfreqOf, List.replicate, List.set]
  have hrun2 := (c6_maxfreq_guard cfgC2 0 45 (some 5) 1000 (initState cfgC2)
    _ _ _ _ _ _ hq2 he2 ha2).2 hm2
  exact ⟨⟨hq6, he6, ha6, hm6, hrun6⟩, ⟨hq2, he2, ha2, hm2, hrun2⟩⟩

end Windrose